import Mathlib

/-!
# lukashes/numbers: the merge engine of `handler`

A shallow embedding of `src/main.go`.  Go `int` values are modelled as `Int`:
the program only compares and copies them, it never does arithmetic on them.
A Go `[]int` is a `Slice`: either the nil slice or an allocated slice with its
elements.  Loops are structural recursions over the list the `range` clause
iterates, carrying the variables the loop body assigns.
-/

namespace Numbers

/-! ## Slices -/

/-- Go `[]int`: `none` is the nil slice, `some xs` an allocated slice. -/
abbrev Slice := Option (List Int)

/-- Elements of a slice; the nil slice has none. -/
def Slice.elems : Slice → List Int
  | none => []
  | some xs => xs

/-- Indexing `arr[i]`; every use in the program is in range (see `loopBody`). -/
def at_ (arr : List Int) (i : Nat) : Int := arr.getD i 0

/-- Library `sort.Ints`: ascending sort of a slice of ints. -/
def sortInts (arr : List Int) : List Int := arr.insertionSort (· ≤ ·)

/-! ## `uniqFromSorted` (main.go 198-214) -/

/-- Loop `for k, v := range arr` of `uniqFromSorted`; `k` is the index of the
head of the remaining list, `last` and `res` are the function's variables. -/
def uniqLoop : Nat → Int → List Int → List Int → List Int
  | _, _, res, [] => res
  | k, last, res, v :: vs =>
    if k ≠ 0 ∧ v = last then uniqLoop (k + 1) last res vs
    else uniqLoop (k + 1) v (res ++ [v]) vs

/-- Go `uniqFromSorted`: `last` starts at the zero value, `res` empty. -/
def uniqFromSorted (arr : List Int) : List Int := uniqLoop 0 0 [] arr

/-! ## The general merge (main.go 153-191) -/

/-- Variables of the general merge: the output `merged`, the read position `p`
in `new`, the last value emitted `l`, and the per-iteration copy of the outer
index `k` (the inner loop increments it; `sset[k:]` reads it). -/
structure MergeVars where
  merged : List Int
  p : Nat
  l : Int
  k : Nat
  deriving DecidableEq, Repr

/-- Inner loop `for _, n := range new[p:]` (main.go 163-181) for the element
`e` of `sset`; the list argument is what is left of the slice `new[p:]` that
was taken when the loop started. -/
def innerLoop (e : Int) : List Int → MergeVars → MergeVars
  | [], s => s
  | n :: ns, s =>
    if e ≤ n then
      let s1 : MergeVars := if e = n then { s with p := s.p + 1 } else s
      -- l = e; k++; merged = append(merged, l); break
      { s1 with l := e, k := s1.k + 1, merged := s1.merged ++ [e] }
    else
      let s1 : MergeVars := { s with p := s.p + 1 }
      if e = n ∨ s1.l = n then innerLoop e ns s1
      else innerLoop e ns { s1 with l := n, merged := s1.merged ++ [n] }

/-- Outer loop `for k, e := range sset` (main.go 157-187).  The third argument
is the index of the head of the fourth, the part of `sset` still to visit. -/
def outerLoop (sset new : List Int) : Nat → List Int → MergeVars → MergeVars
  | _, [], s => s
  | k, e :: es, s =>
    if s.l = e ∧ k ≠ 0 then outerLoop sset new (k + 1) es s
    else
      let s1 := innerLoop e (new.drop s.p) { s with k := k }
      if s1.p = new.length then
        -- merged = append(merged, sset[k:]...); break
        { s1 with merged := s1.merged ++ sset.drop s1.k }
      else outerLoop sset new (k + 1) es s1

/-- The `// Merge` block: builds `merged` from `sset` and the sorted `new`. -/
def generalMerge (sset new : List Int) : List Int :=
  let s := outerLoop sset new 0 sset { merged := [], p := 0, l := 0, k := 0 }
  s.merged ++ uniqFromSorted (new.drop s.p)

/-! ## The loop over the channel (main.go 122-192) -/

/-- Body of `for new := range tube` from `sort.Ints(new)` on, for a `new`
of positive length; the result is the value assigned to `sset`. -/
def mergeSorted (sset : List Int) (new : List Int) : List Int :=
  if sset.length = 0 then uniqFromSorted new
  else if at_ sset (sset.length - 1) < at_ new 0 then sset ++ uniqFromSorted new
  else if at_ new (new.length - 1) < at_ sset 0 then uniqFromSorted new ++ sset
  else generalMerge sset new

/-- One iteration of `for new := range tube`. -/
def loopBody (sset : Slice) (new : List Int) : Slice :=
  if new.length = 0 then sset
  else some (mergeSorted sset.elems (sortInts new))

/-- The whole loop `for new := range tube`, run on the lists the channel
delivers, in arrival order, from the accumulator `sset`. -/
def rangeTube (sset : Slice) (tube : List (List Int)) : Slice :=
  tube.foldl loopBody sset

/-- The accumulator when the loop ends: `var sset []int` starts nil. -/
def mergeAll (tube : List (List Int)) : Slice := rangeTube none tube

/-! ## Reference values the claims compare the loop with -/

/-- Tail of `uniqFromSorted` once a first value has been kept: drops every
value equal to the last one kept. -/
def keepNew : Int → List Int → List Int
  | _, [] => []
  | last, v :: vs => if v = last then keepNew last vs else v :: keepNew v vs

/-- Ascending, duplicate-free list of the set union of the given lists. -/
def sortedUnion (ls : List (List Int)) : List Int :=
  (ls.flatten.dedup).insertionSort (· ≤ ·)

/-! ## `receiveNumbers` (main.go 216-248) -/

/-- Go `NumbersResponse`. -/
structure NumbersResponse where
  Numbers : Slice
  deriving DecidableEq, Repr

/-- The fields of `http.Response` that the program reads. -/
structure HttpResponse where
  StatusCode : Nat
  Body : String
  deriving DecidableEq, Repr

/-- Results of the library calls that one run of `receiveNumbers` makes:
`http.NewRequest`, `client.Do` (which fails on a transport error, on a
cancelled context and on a timeout) and `json.Decoder.Decode`. -/
structure Library where
  newRequest : String → Except String Unit
  clientDo : String → Except String HttpResponse
  decode : String → Except String NumbersResponse

/-- Constant `http.StatusOK`. -/
def StatusOK : Nat := 200
/-- Constant `http.StatusBadRequest`. -/
def StatusBadRequest : Nat := 400
/-- Constant `http.StatusNotFound`. -/
def StatusNotFound : Nat := 404

/-- Go `receiveNumbers`: `.error` is the return `nil, err`. -/
def receiveNumbers (lib : Library) (url : String) : Except String Slice :=
  match lib.newRequest url with
  | .error err => .error ("new number request: " ++ err)
  | .ok _ =>
    match lib.clientDo url with
    | .error err => .error ("during number request err: " ++ err)
    | .ok res =>
      if res.StatusCode ≠ StatusOK then
        .error ("service returns unexpected ststus: " ++ toString res.StatusCode)
      else
        match lib.decode res.Body with
        | .error err => .error ("decode numbers response: " ++ err)
        | .ok numbers => .ok numbers.Numbers

/-! ## `handler` (main.go 66-196) -/

/-- Library `encoding/json` on a `[]int` field: the nil slice is written as
`null`, an allocated slice as a JSON array. -/
def encodeInts : Slice → String
  | none => "null"
  | some xs => "[" ++ ",".intercalate (xs.map toString) ++ "]"

/-- Call `json.NewEncoder(w).Encode(v)` for a `NumbersResponse`: the object
with its one field `numbers`, then a newline. -/
def Encode (v : NumbersResponse) : String :=
  "\x7b\"numbers\":" ++ encodeInts v.Numbers ++ "\x7d\n"

/-- The parts of `http.Request` that `handler` reads: `r.URL.Path` and the
decoded query parameters in the order they were given. -/
structure Request where
  Path : String
  Query : List (String × String)
  deriving DecidableEq, Repr

/-- Expression `r.URL.Query()["u"]`: the values of the parameter `u`. -/
def Request.u (r : Request) : List String :=
  r.Query.filterMap (fun kv => if kv.1 = "u" then some kv.2 else none)

/-- What is outside the handler during one request: the library results seen
by the goroutine started for the `i`-th url, and the order in which the
goroutines started for the request get through their fetch. -/
structure World where
  lib : Nat → Library
  sched : List (Nat × String) → List (Nat × String)

/-- What one run of `handler` did: the status code and body written to the
`ResponseWriter`, the urls a fetch goroutine was started for, and the lists the
loop `for new := range tube` received. -/
structure Run where
  Code : Nat
  Body : String
  fetched : List String
  received : List (List Int)
  deriving DecidableEq, Repr

/-- The goroutine `go func(url string)` (main.go 101-113) with index `g.1`
and url `g.2`: what it sends on `tube`, if anything. -/
def goroutine (w : World) (g : Nat × String) : Option (List Int) :=
  match receiveNumbers (w.lib g.1) g.2 with
  | .error _ => none
  | .ok numbers => some numbers.elems

/-- Go `handler`.  The goroutines are started for `urls` in order; the channel
delivers what they send in the order `w.sched` lets them finish. -/
def handler (w : World) (r : Request) : Run :=
  if r.Path ≠ "/numbers" then
    { Code := StatusNotFound, Body := "", fetched := [], received := [] }
  else
    let urls := r.u
    if urls.length = 0 then
      { Code := StatusBadRequest, Body := "", fetched := [], received := [] }
    else
      let tube := (w.sched urls.enum).filterMap (goroutine w)
      let sset := rangeTube none tube
      { Code := StatusOK, Body := Encode { Numbers := sset }, fetched := urls, received := tube }

/-- Whether the fetch of goroutine `g` returns without error. -/
def succeeds (w : World) (g : Nat × String) : Bool :=
  match receiveNumbers (w.lib g.1) g.2 with
  | .error _ => false
  | .ok _ => true

/-- The lists of the goroutines in `gs`, all taken to be successful. -/
def listsOf (w : World) (gs : List (Nat × String)) : List (List Int) :=
  gs.filterMap (goroutine w)

/-! ## Sample sources, after the stub server of main_test.go -/

/-- Body the stub `/fibo` serves. -/
def fiboBody : String := "\x7b\"numbers\":[1,1,2,3,5,8,13,21]\x7d\n"

/-- Body a source with no numbers serves. -/
def emptyBody : String := "\x7b\"numbers\":[]\x7d\n"

/-- Library results against the stub server: `/fibo` answers 200 with its
list, `/empty` answers 200 with an empty list, `/created` answers 201 with
the list of `/fibo`, every other url answers 503 (the stub `unavailable`). -/
def stubLib : Library where
  newRequest := fun _ => .ok ()
  clientDo := fun url =>
    if url = "http://localhost:8090/fibo" then .ok { StatusCode := 200, Body := fiboBody }
    else if url = "http://localhost:8090/empty" then .ok { StatusCode := 200, Body := emptyBody }
    else if url = "http://localhost:8090/created" then .ok { StatusCode := 201, Body := fiboBody }
    else .ok { StatusCode := 503, Body := "service unavailable\n" }
  decode := fun body =>
    if body = fiboBody then .ok { Numbers := some [1, 1, 2, 3, 5, 8, 13, 21] }
    else if body = emptyBody then .ok { Numbers := some [] }
    else .error "invalid character"

/-- The stub server seen by every goroutine, which finish in start order. -/
def stubWorld : World where
  lib := fun _ => stubLib
  sched := fun gs => gs

/-- Request `GET /numbers?u=.../fibo&u=.../unavailable` of main_test.go. -/
def fiboUnavailable : Request where
  Path := "/numbers"
  Query := [("u", "http://localhost:8090/fibo"), ("u", "http://localhost:8090/unavailable")]

/-- Request `GET /numbers?u=.../unavailable` of main_test.go. -/
def onlyUnavailable : Request where
  Path := "/numbers"
  Query := [("u", "http://localhost:8090/unavailable")]

/-- Request `GET /numbers?u=.../unavailable&u=.../empty`. -/
def unavailableAndEmpty : Request where
  Path := "/numbers"
  Query := [("u", "http://localhost:8090/unavailable"), ("u", "http://localhost:8090/empty")]

/-- Request `GET /numbers?u=.../fibo`. -/
def onlyFibo : Request where
  Path := "/numbers"
  Query := [("u", "http://localhost:8090/fibo")]

/-! ## The goroutines of `handler` (main.go 97-192) as a transition system -/

/-- Where a fetch goroutine `go func(url string)` (main.go 101-113) stands. -/
inductive Worker
  /-- Inside `receiveNumbers`. -/
  | fetching
  /-- Blocked on `tube <- numbers`. -/
  | sending (numbers : List Int)
  /-- Past the send, or past the `return` of the error branch; the deferred
  `wg.Done()` has not run yet. -/
  | returning
  /-- The deferred `wg.Done()` has run and the goroutine has terminated. -/
  | done
  deriving DecidableEq, Repr

/-- Where the goroutine `go func() { wg.Wait(); close(tube) }` stands. -/
inductive Closer
  | notStarted
  /-- Blocked in `wg.Wait()`. -/
  | waiting
  /-- Call `wg.Wait()` has returned, `close(tube)` has not run yet. -/
  | woken
  /-- Past `close(tube)`. -/
  | exited
  deriving DecidableEq, Repr

/-- State of one request being handled, past the two validation checks. -/
structure Conc where
  /-- Urls the loop `for _, u := range urls` has still to visit. -/
  pending : Nat
  /-- The fetch goroutines started so far, in start order. -/
  workers : List Worker
  /-- Counter of the `sync.WaitGroup`. -/
  wg : Nat
  closer : Closer
  /-- Whether `close(tube)` has run. -/
  tubeClosed : Bool
  /-- Whether the handler is in the loop `for new := range tube`. -/
  ranging : Bool
  /-- Whether the handler has left that loop. -/
  finished : Bool
  /-- History: the lists with which a goroutine reached `tube <- numbers`. -/
  sent : List (List Int)
  /-- History: the lists the loop has taken from `tube`. -/
  received : List (List Int)
  /-- The accumulator of the loop. -/
  sset : Slice
  /-- Whether the runtime has panicked: a send on the closed channel, or a
  `wg.Done()` that takes the counter below zero. -/
  crashed : Bool
  deriving DecidableEq, Repr

/-- The steps of the goroutines; `i` is the index of a fetch goroutine. -/
inductive Event
  /-- Handler, one turn of the loop at main.go 99: `wg.Add(1)` and `go func`. -/
  | spawn
  /-- Handler, main.go 117: starts the closing goroutine and enters the loop
  over `tube`. -/
  | startCloser
  /-- Goroutine `i`: `receiveNumbers` returns an error. -/
  | fetchErr (i : Nat)
  /-- Goroutine `i`: `receiveNumbers` returns `numbers` without error. -/
  | fetchOk (i : Nat) (numbers : List Int)
  /-- Goroutine `i`: its send on the unbuffered `tube` meets the receive of
  the loop, which runs its body on the list. -/
  | send (i : Nat)
  /-- Goroutine `i`: the deferred `wg.Done()`. -/
  | wgDone (i : Nat)
  /-- Closing goroutine: `wg.Wait()` returns, which needs the counter at 0. -/
  | waitReturns
  /-- Closing goroutine: `close(tube)`. -/
  | closeTube
  /-- Handler: the receive on the closed channel ends the loop. -/
  | rangeEnds
  deriving DecidableEq, Repr

/-- The list a goroutine blocked on its send is holding. -/
def Worker.payload : Worker → Option (List Int)
  | .sending numbers => some numbers
  | _ => none

/-- Whether a goroutine has not terminated yet. -/
def Worker.live : Worker → Bool
  | .done => false
  | _ => true

/-- State when the handler reaches `wg := sync.WaitGroup{}` with `n` urls. -/
def Conc.start (n : Nat) : Conc where
  pending := n
  workers := []
  wg := 0
  closer := .notStarted
  tubeClosed := false
  ranging := false
  finished := false
  sent := []
  received := []
  sset := none
  crashed := false

/-- One step; `none` when the event cannot happen in the state. -/
def Conc.step (s : Conc) : Event → Option Conc
  | .spawn =>
    if s.crashed = false ∧ s.ranging = false ∧ 0 < s.pending then
      some { s with pending := s.pending - 1, workers := s.workers ++ [Worker.fetching],
                    wg := s.wg + 1 }
    else none
  | .startCloser =>
    if s.crashed = false ∧ s.ranging = false ∧ s.pending = 0 then
      some { s with closer := .waiting, ranging := true }
    else none
  | .fetchErr i =>
    if s.crashed = false ∧ s.workers.get? i = some Worker.fetching then
      some { s with workers := s.workers.set i Worker.returning }
    else none
  | .fetchOk i numbers =>
    if s.crashed = false ∧ s.workers.get? i = some Worker.fetching then
      some { s with workers := s.workers.set i (Worker.sending numbers),
                    sent := s.sent ++ [numbers] }
    else none
  | .send i =>
    match s.workers.get? i with
    | some (Worker.sending numbers) =>
      if s.crashed = true then none
      else if s.tubeClosed = true then some { s with crashed := true }
      else if s.ranging = true ∧ s.finished = false then
        some { s with workers := s.workers.set i Worker.returning,
                      received := s.received ++ [numbers],
                      sset := loopBody s.sset numbers }
      else none
    | _ => none
  | .wgDone i =>
    if s.crashed = false ∧ s.workers.get? i = some Worker.returning then
      if s.wg = 0 then some { s with crashed := true }
      else some { s with workers := s.workers.set i Worker.done, wg := s.wg - 1 }
    else none
  | .waitReturns =>
    if s.crashed = false ∧ s.closer = .waiting ∧ s.wg = 0 then
      some { s with closer := .woken }
    else none
  | .closeTube =>
    if s.crashed = false ∧ s.closer = .woken then
      some { s with closer := .exited, tubeClosed := true }
    else none
  | .rangeEnds =>
    if s.crashed = false ∧ s.ranging = true ∧ s.finished = false ∧ s.tubeClosed = true then
      some { s with finished := true }
    else none

/-- Runs a sequence of events; `none` when one of them cannot happen. -/
def Conc.run (s : Conc) : List Event → Option Conc
  | [] => some s
  | e :: es => (s.step e).bind (fun s1 => s1.run es)

/-- A complete run for two urls: the first source succeeds with
`[1,1,2,3,5,8,13,21]`, the second fails. -/
def sampleTrace : List Event :=
  [.spawn, .spawn, .startCloser, .fetchErr 1, .fetchOk 0 [1, 1, 2, 3, 5, 8, 13, 21],
   .wgDone 1, .send 0, .wgDone 0, .waitReturns, .closeTube, .rangeEnds]

/-- The state `sampleTrace` ends in. -/
def sampleFinal : Conc where
  pending := 0
  workers := [Worker.done, Worker.done]
  wg := 0
  closer := .exited
  tubeClosed := true
  ranging := true
  finished := true
  sent := [[1, 1, 2, 3, 5, 8, 13, 21]]
  received := [[1, 1, 2, 3, 5, 8, 13, 21]]
  sset := some [1, 2, 3, 5, 8, 13, 21]
  crashed := false

/-- What holds in every state the goroutines can reach from `Conc.start n`. -/
structure Conc.Inv (n : Nat) (s : Conc) : Prop where
  notCrashed : s.crashed = false
  started : s.pending + s.workers.length = n
  counter : s.wg = s.workers.countP Worker.live
  closerLate : s.closer ≠ Closer.notStarted → s.pending = 0
  closerEarly : s.ranging = false → s.closer = Closer.notStarted
  allDone : s.closer = Closer.woken ∨ s.closer = Closer.exited → ∀ w ∈ s.workers, w = Worker.done
  closedBy : s.tubeClosed = true → s.closer = Closer.exited
  inFlight : (s.received : Multiset (List Int)) + (s.workers.filterMap Worker.payload : Multiset (List Int))
    = (s.sent : Multiset (List Int))
  accumulator : s.sset = rangeTube none s.received

/-! ## The inner loop in closed form, and the reference merge -/

/-- What `innerLoop` computes, read off the list: the values of `new[p:]` below
`e` are passed over, each emitted unless equal to the one before it (or to
the incoming `l`); then `e` is emitted if a value at least `e` is left. -/
def innerSpec (e : Int) (ns : List Int) (s : MergeVars) : MergeVars :=
  let low := ns.takeWhile (· < e)
  match ns.dropWhile (· < e) with
  | [] =>
    { merged := s.merged ++ keepNew s.l low, p := s.p + low.length,
      l := (low.getLast?).getD s.l, k := s.k }
  | n :: _ =>
    { merged := s.merged ++ keepNew s.l low ++ [e],
      p := s.p + low.length + (if e = n then 1 else 0), l := e, k := s.k + 1 }

/-- The standard two-pointer ascending merge with deduplication, as section
4.4 of the specification words it: emit the smaller head and advance its
side; on equal heads emit once and advance both.  `fuel` bounds the steps. -/
def referenceMergeFuel : Nat → List Int → List Int → List Int
  | 0, _, _ => []
  | _ + 1, [], bs => bs
  | _ + 1, as, [] => as
  | fuel + 1, a :: as, b :: bs =>
    if a < b then a :: referenceMergeFuel fuel as (b :: bs)
    else if b < a then b :: referenceMergeFuel fuel (a :: as) bs
    else a :: referenceMergeFuel fuel as bs

/-- The reference merge, with fuel for every element of both lists. -/
def referenceMerge (as bs : List Int) : List Int :=
  referenceMergeFuel (as.length + bs.length + 1) as bs

/-- What the general merge appends after the part of `merged` built so far,
read off the lists: `es` is the part of `sset` still to visit, `rest` is
`new[p:]`, `l` the last value emitted, and `nz` tells whether the outer index
`k` is past 0.  The three ways out of the outer loop are the end of `es`
(then `uniqFromSorted(new[p:])` follows), and the two ways to reach
`p == len(new)` (then `sset[k:]` follows). -/
def mergeTail : Bool → List Int → List Int → Int → List Int
  | _, [], rest, _ => uniqFromSorted rest
  | nz, e :: es, rest, l =>
    if l = e ∧ nz = true then mergeTail true es rest l
    else
      match rest.dropWhile (· < e) with
      | [] => keepNew l (rest.takeWhile (· < e)) ++ e :: es
      | n :: t =>
        if e = n then
          if t = [] then keepNew l (rest.takeWhile (· < e)) ++ e :: es
          else keepNew l (rest.takeWhile (· < e)) ++ e :: mergeTail true es t e
        else keepNew l (rest.takeWhile (· < e)) ++ e :: mergeTail true es (n :: t) e

/-! ## The stub `/rand` of main_test.go -/

/-- Body the stub `/rand` serves. -/
def randBody : String := "\x7b\"numbers\":[5,17,3,19,76,24,1,5,10,34,8,27,7]\x7d\n"

/-- Library results against the stub `/rand`, which answers 200 with its list
to every url. -/
def randLib : Library where
  newRequest := fun _ => .ok ()
  clientDo := fun _ => .ok { StatusCode := 200, Body := randBody }
  decode := fun body =>
    if body = randBody then .ok { Numbers := some [5, 17, 3, 19, 76, 24, 1, 5, 10, 34, 8, 27, 7] }
    else .error "invalid character"

/-- The stub `/rand` seen by every goroutine. -/
def randWorld : World where
  lib := fun _ => randLib
  sched := fun gs => gs

/-- Request `GET /numbers?u=.../rand` of main_test.go. -/
def onlyRand : Request where
  Path := "/numbers"
  Query := [("u", "http://localhost:8090/rand")]

/-! ## Theorems -/

/-! ### `uniqFromSorted` -/

theorem uniqLoop_succ (k : Nat) (last : Int) (res vs : List Int) :
    uniqLoop (k + 1) last res vs = res ++ keepNew last vs := by
  induction vs generalizing k last res with
  | nil => simp [uniqLoop, keepNew]
  | cons v vs ih =>
    by_cases h : v = last
    · simp [uniqLoop, keepNew, h, ih]
    · simp [uniqLoop, keepNew, h, ih]

theorem uniqFromSorted_nil : uniqFromSorted [] = [] := rfl

theorem uniqFromSorted_cons (v : Int) (vs : List Int) :
    uniqFromSorted (v :: vs) = v :: keepNew v vs := by
  simp [uniqFromSorted, uniqLoop, uniqLoop_succ]

theorem keepNew_sublist (last : Int) (vs : List Int) : (keepNew last vs).Sublist vs := by
  induction vs generalizing last with
  | nil => simp [keepNew]
  | cons v vs ih =>
    by_cases h : v = last
    · simp only [keepNew, h, if_true]; exact (ih last).cons _
    · simp only [keepNew, h, if_false]; exact (ih v).cons₂ _

theorem mem_keepNew (last : Int) (vs : List Int) (x : Int) :
    x ∈ vs → x = last ∨ x ∈ keepNew last vs := by
  induction vs generalizing last with
  | nil => simp
  | cons v vs ih =>
    intro hx
    by_cases h : v = last
    · simp only [keepNew, h, if_true]
      rcases List.mem_cons.1 hx with hxv | hxv
      · exact Or.inl (hxv.trans h)
      · exact ih last hxv
    · simp only [keepNew, h, if_false]
      rcases List.mem_cons.1 hx with hxv | hxv
      · exact Or.inr (by simp [hxv])
      · rcases ih v hxv with h1 | h1
        · exact Or.inr (by simp [h1])
        · exact Or.inr (List.mem_cons_of_mem _ h1)

theorem keepNew_sorted (last : Int) (vs : List Int) (h : (last :: vs).Sorted (· ≤ ·)) :
    (last :: keepNew last vs).Sorted (· < ·) := by
  induction vs generalizing last with
  | nil => simp [keepNew]
  | cons v vs ih =>
    have hv : last ≤ v := List.rel_of_sorted_cons h v (List.mem_cons_self _ _)
    have htl : (v :: vs).Sorted (· ≤ ·) := List.Sorted.of_cons h
    by_cases hveq : v = last
    · simp only [keepNew, hveq, if_true]
      exact ih last (hveq ▸ htl)
    · simp only [keepNew, hveq, if_false]
      have hlt : last < v := lt_of_le_of_ne hv (Ne.symm hveq)
      have ih1 := ih v htl
      refine List.sorted_cons.2 ⟨?_, ih1⟩
      intro b hb
      rcases List.mem_cons.1 hb with hb | hb
      · exact hb ▸ hlt
      · exact lt_trans hlt (List.rel_of_sorted_cons ih1 b hb)

/-- C8. `uniqFromSorted` on a slice sorted in non-decreasing order returns a
strictly ascending slice with exactly the values of the input, each once and in
the original order (the result is a sublist of the input).  The first value
may be anything, 0 included: `last` is only compared from index 1 on. -/
theorem uniqFromSorted_strict_same_values (arr : List Int) (h : arr.Sorted (· ≤ ·)) :
    (uniqFromSorted arr).Sorted (· < ·) ∧ (∀ v, v ∈ uniqFromSorted arr ↔ v ∈ arr) ∧
      (uniqFromSorted arr).Sublist arr := by
  cases arr with
  | nil => simp [uniqFromSorted_nil]
  | cons a vs =>
    rw [uniqFromSorted_cons]
    refine ⟨keepNew_sorted a vs h, ?_, (keepNew_sublist a vs).cons₂ a⟩
    intro v
    constructor
    · intro hv
      rcases List.mem_cons.1 hv with hv | hv
      · simp [hv]
      · exact List.mem_cons_of_mem _ ((keepNew_sublist a vs).subset hv)
    · intro hv
      rcases List.mem_cons.1 hv with hv | hv
      · simp [hv]
      · rcases mem_keepNew a vs v hv with h1 | h1
        · simp [h1]
        · exact List.mem_cons_of_mem _ h1

/-- Witness of C8 on a sorted slice that starts with 0 and repeats values. -/
theorem uniqFromSorted_strict_same_values_witness :
    [0, 0, 1, 3, 3, 3, 8].Sorted (· ≤ ·) ∧ uniqFromSorted [0, 0, 1, 3, 3, 3, 8] = [0, 1, 3, 8] ∧
      ((uniqFromSorted [0, 0, 1, 3, 3, 3, 8]).Sorted (· < ·) ∧
        (∀ v, v ∈ uniqFromSorted [0, 0, 1, 3, 3, 3, 8] ↔ v ∈ ([0, 0, 1, 3, 3, 3, 8] : List Int)) ∧
        (uniqFromSorted [0, 0, 1, 3, 3, 3, 8]).Sublist [0, 0, 1, 3, 3, 3, 8]) :=
  ⟨by decide, by decide, uniqFromSorted_strict_same_values [0, 0, 1, 3, 3, 3, 8] (by decide)⟩

/-! ### The merge loop on the seam of two lists -/

/-- C1. The union property fails on the code.  With `[1,5]` in the accumulator
and `[5,5]` arriving, the general merge emits 5 for `sset` and then appends
`uniqFromSorted(new[p:]) = [5]`: the result `[1,5,5]` is not the union `[1,5]`.
With `[1,5]` then `[0,3]` the value 0 is dropped, because `l` starts at 0 and
`l == n` takes it for a value already emitted: `[1,3,5]`, not `[0,1,3,5]`.  The
two lists of the test, in both orders, do give `[1,2,3,5,7,8,11,13,21]`. -/
theorem mergeAll_union_fails :
    (mergeAll [[1, 5], [5, 5]]).elems = [1, 5, 5] ∧ sortedUnion [[1, 5], [5, 5]] = [1, 5] ∧
    (mergeAll [[1, 5], [0, 3]]).elems = [1, 3, 5] ∧ sortedUnion [[1, 5], [0, 3]] = [0, 1, 3, 5] ∧
    (mergeAll [[2, 3, 5, 7, 11, 13], [1, 1, 2, 3, 5, 8, 13, 21]]).elems
      = [1, 2, 3, 5, 7, 8, 11, 13, 21] ∧
    (mergeAll [[1, 1, 2, 3, 5, 8, 13, 21], [2, 3, 5, 7, 11, 13]]).elems
      = [1, 2, 3, 5, 7, 8, 11, 13, 21] := by
  decide

/-- C2. The loop depends on the arrival order: the lists `[1,5]` and `[5,5]`
give `[1,5,5]` when `[1,5]` arrives first and `[1,5]` when `[5,5]` does. -/
theorem mergeAll_order_dependent :
    [[1, 5], [5, 5]].Perm ([[5, 5], [1, 5]] : List (List Int)) ∧
    mergeAll [[1, 5], [5, 5]] = some [1, 5, 5] ∧ mergeAll [[5, 5], [1, 5]] = some [1, 5] ∧
    mergeAll [[1, 5], [5, 5]] ≠ mergeAll [[5, 5], [1, 5]] := by
  refine ⟨List.Perm.swap _ _ _, by decide, by decide, by decide⟩

/-- C3. The accumulator is not always strictly ascending: it is after the
first list `[1,5]`, and after the second list `[5,5]` it is `[1,5,5]`. -/
theorem accumulator_not_strictly_ascending :
    (rangeTube none [[1, 5]]).elems.Sorted (· < ·) ∧
    loopBody (some [1, 5]) [5, 5] = some [1, 5, 5] ∧
    ¬ (rangeTube none [[1, 5], [5, 5]]).elems.Sorted (· < ·) := by
  decide

/-- C4. A value of the incoming lists need not occur exactly once in the
result: 5 occurs twice after `[1,5]`, `[5,5]`, and 0 does not occur at all
after `[1,5]`, `[0,3]`. -/
theorem duplicate_value_count_fails :
    (5 : Int) ∈ [1, 5] ∧ (mergeAll [[1, 5], [5, 5]]).elems.count 5 = 2 ∧
    (0 : Int) ∈ [0, 3] ∧ (mergeAll [[1, 5], [0, 3]]).elems.count 0 = 0 := by
  decide

/-! ### `receiveNumbers` -/

theorem receiveNumbers_ok_iff (lib : Library) (url : String) (nums : Slice) :
    receiveNumbers lib url = .ok nums ↔
      lib.newRequest url = .ok () ∧
      ∃ res numbers, lib.clientDo url = .ok res ∧ res.StatusCode = StatusOK ∧
        lib.decode res.Body = .ok numbers ∧ numbers.Numbers = nums := by
  unfold receiveNumbers
  cases h1 : lib.newRequest url with
  | error e => simp
  | ok u =>
    cases h2 : lib.clientDo url with
    | error e => simp
    | ok res =>
      by_cases h3 : res.StatusCode = StatusOK
      · cases h4 : lib.decode res.Body with
        | error e => simp [h3, h4]
        | ok numbers => simp [h3, h4]
      · simp [h3]

/-- C9, as the code has it.  `receiveNumbers` returns the decoded list without
error exactly when the request was built, `client.Do` returned a response, the
status code is 200 (`http.StatusOK`, no other 2xx code) and the body decodes;
in every other case it returns an error and no list. -/
theorem receiveNumbers_success_criterion (lib : Library) (url : String) :
    (∀ nums, receiveNumbers lib url = .ok nums ↔
      lib.newRequest url = .ok () ∧
      ∃ res numbers, lib.clientDo url = .ok res ∧ res.StatusCode = 200 ∧
        lib.decode res.Body = .ok numbers ∧ numbers.Numbers = nums) ∧
    ((∃ nums, receiveNumbers lib url = .ok nums) ∨
      (∃ err, receiveNumbers lib url = .error err)) := by
  refine ⟨fun nums => receiveNumbers_ok_iff lib url nums, ?_⟩
  cases h : receiveNumbers lib url with
  | error e => exact Or.inr ⟨e, rfl⟩
  | ok nums => exact Or.inl ⟨nums, rfl⟩

/-- C9 as stated fails: a source that answers 201, a 2xx code, with a body
that decodes is an error for `receiveNumbers`. -/
theorem receiveNumbers_rejects_201 :
    stubLib.newRequest "http://localhost:8090/created" = .ok () ∧
    stubLib.clientDo "http://localhost:8090/created" = .ok { StatusCode := 201, Body := fiboBody } ∧
    (200 ≤ 201 ∧ 201 < 300) ∧
    stubLib.decode fiboBody = .ok { Numbers := some [1, 1, 2, 3, 5, 8, 13, 21] } ∧
    receiveNumbers stubLib "http://localhost:8090/created"
      = .error "service returns unexpected ststus: 201" :=
  ⟨rfl, rfl, by decide, rfl, rfl⟩

/-! ### `handler` -/

theorem rangeTube_all_empty (sset : Slice) (tube : List (List Int))
    (h : ∀ xs ∈ tube, xs = []) : rangeTube sset tube = sset := by
  induction tube generalizing sset with
  | nil => rfl
  | cons x xs ih =>
    have hx : x = [] := h x (List.mem_cons_self _ _)
    have hxs : ∀ ys ∈ xs, ys = [] := fun ys hy => h ys (List.mem_cons_of_mem _ hy)
    subst hx
    simpa [rangeTube, loopBody] using ih sset hxs

theorem goroutine_of_succeeds_false (w : World) (g : Nat × String) (h : succeeds w g = false) :
    goroutine w g = none := by
  unfold succeeds at h
  unfold goroutine
  cases hr : receiveNumbers (w.lib g.1) g.2 with
  | error e => rfl
  | ok nums => simp [hr] at h

theorem listsOf_filter_succeeds (w : World) (gs : List (Nat × String)) :
    listsOf w (gs.filter (succeeds w)) = gs.filterMap (goroutine w) := by
  induction gs with
  | nil => rfl
  | cons g gs ih =>
    cases hs : succeeds w g with
    | true =>
      simp only [listsOf] at ih ⊢
      simp [List.filter_cons, hs, List.filterMap_cons, ih]
    | false =>
      simp only [listsOf] at ih ⊢
      simp [List.filter_cons, hs, List.filterMap_cons, ih, goroutine_of_succeeds_false w g hs]

theorem handler_of_valid (w : World) (r : Request) (hp : r.Path = "/numbers") (hu : r.u ≠ []) :
    handler w r =
      { Code := StatusOK
        Body := Encode { Numbers := rangeTube none ((w.sched r.u.enum).filterMap (goroutine w)) }
        fetched := r.u
        received := (w.sched r.u.enum).filterMap (goroutine w) } := by
  have hl : r.u.length ≠ 0 := fun h => hu (List.length_eq_zero.1 h)
  simp [handler, hp, hl]

/-- C5. For a request to `/numbers` with at least one `u` parameter, a source
whose fetch returns an error sends nothing to the merge loop: the status is 200,
the loop receives exactly the lists of the sources that succeeded, in their
arrival order, and the body is the encoding of what the loop makes of them.
So any other request whose successful sources deliver the same lists in the
same order, whatever failing sources it has besides, gets the same response. -/
theorem failing_sources_contribute_nothing (w : World) (r : Request)
    (hp : r.Path = "/numbers") (hu : r.u ≠ []) :
    (handler w r).Code = 200 ∧
    (handler w r).received = listsOf w ((w.sched r.u.enum).filter (succeeds w)) ∧
    (handler w r).Body
      = Encode { Numbers := mergeAll (listsOf w ((w.sched r.u.enum).filter (succeeds w))) } ∧
    ∀ (w2 : World) (r2 : Request), r2.Path = "/numbers" → r2.u ≠ [] →
      listsOf w2 ((w2.sched r2.u.enum).filter (succeeds w2))
        = listsOf w ((w.sched r.u.enum).filter (succeeds w)) →
      (handler w2 r2).Code = (handler w r).Code ∧ (handler w2 r2).Body = (handler w r).Body := by
  have h1 := handler_of_valid w r hp hu
  refine ⟨by rw [h1]; rfl, by rw [h1, listsOf_filter_succeeds], ?_, ?_⟩
  · rw [h1, listsOf_filter_succeeds]; rfl
  · intro w2 r2 hp2 hu2 heq
    rw [listsOf_filter_succeeds, listsOf_filter_succeeds] at heq
    rw [h1, handler_of_valid w2 r2 hp2 hu2]
    simp only [heq, and_self]

/-- Witness of C5 from main_test.go: `/fibo` together with the 503 source gives
`[1,2,3,5,8,13,21]`, the same response as `/fibo` alone. -/
theorem failing_sources_contribute_nothing_witness :
    fiboUnavailable.Path = "/numbers" ∧ fiboUnavailable.u ≠ [] ∧
    succeeds stubWorld (1, "http://localhost:8090/unavailable") = false ∧
    (handler stubWorld fiboUnavailable).Code = 200 ∧
    (handler stubWorld fiboUnavailable).Body = "\x7b\"numbers\":[1,2,3,5,8,13,21]\x7d\n" ∧
    (handler stubWorld onlyFibo).Code = (handler stubWorld fiboUnavailable).Code ∧
    (handler stubWorld onlyFibo).Body = (handler stubWorld fiboUnavailable).Body :=
  ⟨by decide, by decide, by decide,
    (failing_sources_contribute_nothing stubWorld fiboUnavailable (by decide) (by decide)).1,
    by decide,
    (failing_sources_contribute_nothing stubWorld fiboUnavailable (by decide) (by decide)).2.2.2
      stubWorld onlyFibo (by decide) (by decide) (by decide)⟩

/-- C6. A request whose path is not `/numbers` gets 404 and an empty body, a
request to `/numbers` without a `u` parameter gets 400 and an empty body, and
neither starts a fetch nor hands a list to the merge loop; every other request
gets 200 and starts one fetch for each `u`. -/
theorem handler_validation (w : World) (r : Request) :
    (r.Path ≠ "/numbers" →
      handler w r = { Code := 404, Body := "", fetched := [], received := [] }) ∧
    (r.Path = "/numbers" → r.u = [] →
      handler w r = { Code := 400, Body := "", fetched := [], received := [] }) ∧
    (r.Path = "/numbers" → r.u ≠ [] →
      (handler w r).Code = 200 ∧ (handler w r).fetched = r.u) := by
  refine ⟨?_, ?_, ?_⟩
  · intro hp
    simp [handler, hp, StatusNotFound]
  · intro hp hu
    simp [handler, hp, hu, StatusBadRequest]
  · intro hp hu
    rw [handler_of_valid w r hp hu]
    exact ⟨rfl, rfl⟩

/-- Witness of C6 on three requests: another path with a `u` parameter,
`/numbers` with no `u` parameter, and `/numbers?u=.../fibo`. -/
theorem handler_validation_witness :
    handler stubWorld { Path := "/", Query := [("u", "http://localhost:8090/fibo")] }
      = { Code := 404, Body := "", fetched := [], received := [] } ∧
    handler stubWorld { Path := "/numbers", Query := [("v", "http://localhost:8090/fibo")] }
      = { Code := 400, Body := "", fetched := [], received := [] } ∧
    ((handler stubWorld onlyFibo).Code = 200 ∧ (handler stubWorld onlyFibo).fetched = onlyFibo.u) :=
  ⟨(handler_validation stubWorld _).1 (by decide),
    (handler_validation stubWorld _).2.1 (by decide) (by decide),
    (handler_validation stubWorld onlyFibo).2.2 (by decide) (by decide)⟩

/-- C7 as stated fails: when the only source fails, the accumulator is still
the nil slice that `var sset []int` declares, and the body is
`{"numbers":null}`, not an object with an empty array. -/
theorem handler_empty_result_is_null :
    onlyUnavailable.Path = "/numbers" ∧ onlyUnavailable.u ≠ [] ∧
    succeeds stubWorld (0, "http://localhost:8090/unavailable") = false ∧
    (handler stubWorld onlyUnavailable).Code = 200 ∧
    (handler stubWorld onlyUnavailable).Body = "\x7b\"numbers\":null\x7d\n" ∧
    Encode { Numbers := some [] } = "\x7b\"numbers\":[]\x7d\n" ∧
    (handler stubWorld onlyUnavailable).Body ≠ Encode { Numbers := some [] } := by
  decide

/-- C7, as the code has it.  For a request to `/numbers` with at least one `u`
parameter in which every list that reaches the merge loop is empty (no source
succeeds, or the successful ones return no numbers), the status is 200 and the
body is `{"numbers":null}` followed by a newline. -/
theorem handler_empty_result (w : World) (r : Request)
    (hp : r.Path = "/numbers") (hu : r.u ≠ [])
    (hempty : ∀ g ∈ w.sched r.u.enum, ∀ xs, goroutine w g = some xs → xs = []) :
    (handler w r).Code = 200 ∧ (handler w r).Body = "\x7b\"numbers\":null\x7d\n" := by
  rw [handler_of_valid w r hp hu]
  refine ⟨rfl, ?_⟩
  have hall : ∀ xs ∈ (w.sched r.u.enum).filterMap (goroutine w), xs = [] := by
    intro xs hxs
    rcases List.mem_filterMap.1 hxs with ⟨g, hg, hgx⟩
    exact hempty g hg xs hgx
  simp only [rangeTube_all_empty none _ hall]
  decide

/-- Witness of C7: one source answers 503 and one answers 200 with `[]`. -/
theorem handler_empty_result_witness :
    unavailableAndEmpty.Path = "/numbers" ∧ unavailableAndEmpty.u ≠ [] ∧
    goroutine stubWorld (0, "http://localhost:8090/unavailable") = none ∧
    goroutine stubWorld (1, "http://localhost:8090/empty") = some [] ∧
    ((handler stubWorld unavailableAndEmpty).Code = 200 ∧
      (handler stubWorld unavailableAndEmpty).Body = "\x7b\"numbers\":null\x7d\n") :=
  ⟨by decide, by decide, by decide, by decide,
    handler_empty_result stubWorld unavailableAndEmpty (by decide) (by decide) (by decide)⟩

/-! ### The goroutines: the channel is closed after the last `wg.Done()` -/

theorem get?_split {α : Type} (ws : List α) (i : Nat) (w : α) (h : ws.get? i = some w) :
    ∃ l1 l2, ws = l1 ++ w :: l2 ∧ ∀ w2, ws.set i w2 = l1 ++ w2 :: l2 := by
  induction ws generalizing i with
  | nil => simp at h
  | cons a ws ih =>
    cases i with
    | zero =>
      simp at h
      exact ⟨[], ws, by simp [h], fun w2 => by simp⟩
    | succ i =>
      simp at h
      obtain ⟨l1, l2, h1, h2⟩ := ih i (by simpa using h)
      exact ⟨a :: l1, l2, by simp [h1], fun w2 => by simp [h2]⟩

theorem rangeTube_append (sset : Slice) (tube : List (List Int)) (new : List Int) :
    rangeTube sset (tube ++ [new]) = loopBody (rangeTube sset tube) new := by
  simp [rangeTube, List.foldl_append]

theorem countP_live_eq_zero (ws : List Worker) (h : ws.countP Worker.live = 0) :
    ∀ w ∈ ws, w = Worker.done := by
  intro w hw
  have h1 := List.countP_eq_zero.1 h w hw
  cases w <;> simp_all [Worker.live]

theorem not_all_done_of_get? (ws : List Worker) (i : Nat) (w : Worker)
    (h : ws.get? i = some w) (hw : w ≠ Worker.done) : ¬ ∀ v ∈ ws, v = Worker.done := by
  intro hall
  exact hw (hall w (List.mem_iff_get?.2 ⟨i, h⟩))

theorem closer_idle_of_get? (s : Conc)
    (hdone : s.closer = Closer.woken ∨ s.closer = Closer.exited → ∀ w ∈ s.workers, w = Worker.done)
    (i : Nat) (w : Worker) (h : s.workers.get? i = some w) (hw : w ≠ Worker.done) :
    ¬ (s.closer = Closer.woken ∨ s.closer = Closer.exited) :=
  fun hc => not_all_done_of_get? s.workers i w h hw (hdone hc)

theorem Conc.Inv_start (n : Nat) : Conc.Inv n (Conc.start n) := by
  constructor <;> simp [Conc.start, rangeTube]

theorem Conc.Inv_step (n : Nat) (s s1 : Conc) (e : Event) (hinv : Conc.Inv n s)
    (hstep : s.step e = some s1) : Conc.Inv n s1 := by
  obtain ⟨hc, hst, hwg, hcl, hce, hdone, hcb, hfl, hacc⟩ := hinv
  cases e with
  | spawn =>
    simp only [Conc.step] at hstep
    split at hstep
    · rename_i h
      obtain ⟨-, hr, hp⟩ := h
      cases hstep
      have hns : s.closer = Closer.notStarted := hce hr
      constructor
      · exact hc
      · simp; omega
      · simp [hwg, List.countP_append, Worker.live]
      · simp [hns]
      · intro _; exact hns
      · simp [hns]
      · simpa using hcb
      · simpa [Worker.payload] using hfl
      · exact hacc
    · cases hstep
  | startCloser =>
    simp only [Conc.step] at hstep
    split at hstep
    · rename_i h
      obtain ⟨-, hr, hp⟩ := h
      cases hstep
      have hns : s.closer = Closer.notStarted := hce hr
      constructor
      · exact hc
      · exact hst
      · exact hwg
      · intro _; exact hp
      · simp
      · simp
      · intro h1
        have := hcb h1
        simp [hns] at this
      · exact hfl
      · exact hacc
    · cases hstep
  | fetchErr i =>
    simp only [Conc.step] at hstep
    split at hstep
    · rename_i h
      obtain ⟨-, hg⟩ := h
      cases hstep
      have hidle := closer_idle_of_get? s hdone i _ hg (by simp)
      obtain ⟨l1, l2, hws, hset⟩ := get?_split s.workers i _ hg
      constructor
      · exact hc
      · simpa using hst
      · simp only [hset, hwg]
        rw [hws]
        simp [List.countP_append, List.countP_cons, Worker.live]
      · exact hcl
      · exact hce
      · intro h1; exact absurd h1 hidle
      · intro h1; exact absurd (Or.inr (hcb h1)) hidle
      · simp only [hset]
        rw [hws] at hfl
        simpa [List.filterMap_append, List.filterMap_cons, Worker.payload] using hfl
      · exact hacc
    · cases hstep
  | fetchOk i numbers =>
    simp only [Conc.step] at hstep
    split at hstep
    · rename_i h
      obtain ⟨-, hg⟩ := h
      cases hstep
      have hidle := closer_idle_of_get? s hdone i _ hg (by simp)
      obtain ⟨l1, l2, hws, hset⟩ := get?_split s.workers i _ hg
      constructor
      · exact hc
      · simpa using hst
      · simp only [hset, hwg]
        rw [hws]
        simp [List.countP_append, List.countP_cons, Worker.live]
      · exact hcl
      · exact hce
      · intro h1; exact absurd h1 hidle
      · intro h1; exact absurd (Or.inr (hcb h1)) hidle
      · simp only [hset]
        rw [hws] at hfl
        simp only [List.filterMap_append, List.filterMap_cons, Worker.payload,
          ← Multiset.coe_add, ← List.append_assoc] at hfl ⊢
        rw [← hfl, ← Multiset.cons_coe, ← Multiset.singleton_add, Multiset.coe_singleton]
        abel
      · exact hacc
    · cases hstep
  | send i =>
    simp only [Conc.step] at hstep
    split at hstep
    · rename_i numbers hg
      have hidle := closer_idle_of_get? s hdone i _ hg (by simp)
      have hopen : s.tubeClosed = false := by
        cases h : s.tubeClosed with
        | false => rfl
        | true => exact absurd (Or.inr (hcb h)) hidle
      simp only [hc, hopen, Bool.false_eq_true, if_false] at hstep
      split at hstep
      · cases hstep
        obtain ⟨l1, l2, hws, hset⟩ := get?_split s.workers i _ hg
        constructor
        · rfl
        · simpa using hst
        · simp only [hset, hwg]
          rw [hws]
          simp [List.countP_append, List.countP_cons, Worker.live]
        · exact hcl
        · exact hce
        · intro h1; exact absurd h1 hidle
        · intro h1; simp at h1
        · simp only [hset]
          rw [hws] at hfl
          simp only [List.filterMap_append, List.filterMap_cons, Worker.payload,
            ← Multiset.coe_add, ← List.append_assoc] at hfl ⊢
          rw [← hfl]
          simp only [← Multiset.cons_coe, ← Multiset.singleton_add, Multiset.coe_nil, add_zero]
          abel
        · simp only [rangeTube_append, ← hacc]
      · cases hstep
    · cases hstep
  | wgDone i =>
    simp only [Conc.step] at hstep
    split at hstep
    · rename_i h
      obtain ⟨-, hg⟩ := h
      have hidle := closer_idle_of_get? s hdone i _ hg (by simp)
      obtain ⟨l1, l2, hws, hset⟩ := get?_split s.workers i _ hg
      have hpos : s.wg ≠ 0 := by
        rw [hwg, hws]
        simp [List.countP_append, List.countP_cons, Worker.live]
      simp only [hpos, if_false] at hstep
      cases hstep
      constructor
      · exact hc
      · simpa using hst
      · simp only [hset, hwg]
        rw [hws]
        simp [List.countP_append, List.countP_cons, Worker.live]
      · exact hcl
      · exact hce
      · intro h1; exact absurd h1 hidle
      · intro h1; exact absurd (Or.inr (hcb h1)) hidle
      · simp only [hset]
        rw [hws] at hfl
        simpa [List.filterMap_append, List.filterMap_cons, Worker.payload] using hfl
      · exact hacc
    · cases hstep
  | waitReturns =>
    simp only [Conc.step] at hstep
    split at hstep
    · rename_i h
      obtain ⟨-, hw, hz⟩ := h
      cases hstep
      constructor
      · exact hc
      · exact hst
      · exact hwg
      · intro _; exact hcl (by simp [hw])
      · intro h1; have := hce h1; simp [hw] at this
      · intro _; exact countP_live_eq_zero s.workers (hwg ▸ hz)
      · intro h1; have := hcb h1; simp [hw] at this
      · exact hfl
      · exact hacc
    · cases hstep
  | closeTube =>
    simp only [Conc.step] at hstep
    split at hstep
    · rename_i h
      obtain ⟨-, hw⟩ := h
      cases hstep
      constructor
      · exact hc
      · exact hst
      · exact hwg
      · intro _; exact hcl (by simp [hw])
      · intro h1; have := hce h1; simp [hw] at this
      · intro _; exact hdone (Or.inl hw)
      · intro _; rfl
      · exact hfl
      · exact hacc
    · cases hstep
  | rangeEnds =>
    simp only [Conc.step] at hstep
    split at hstep
    · cases hstep
      exact ⟨hc, hst, hwg, hcl, hce, hdone, hcb, hfl, hacc⟩
    · cases hstep

theorem Conc.Inv_run (n : Nat) (tr : List Event) (s s1 : Conc) (hinv : Conc.Inv n s)
    (hrun : s.run tr = some s1) : Conc.Inv n s1 := by
  induction tr generalizing s with
  | nil =>
    simp only [Conc.run, Option.some.injEq] at hrun
    exact hrun ▸ hinv
  | cons e es ih =>
    simp only [Conc.run] at hrun
    cases hs : s.step e with
    | none => simp [hs] at hrun
    | some s2 =>
      rw [hs] at hrun
      exact ih s2 (Conc.Inv_step n s s2 e hinv hs) hrun

/-- C10. In every state the goroutines of `handler` can reach for a request
with `n` urls, the runtime has not panicked and the accumulator is what the
loop makes of the lists received so far; and if `close(tube)` has run, then
all `n` fetch goroutines have been started and every one of them has terminated
(its deferred `wg.Done()` has run), so no goroutine is left holding a list, and
the lists the loop has received are, up to order, exactly the lists with which
a successful fetch reached `tube <- numbers`. -/
theorem tube_closed_after_all_fetches (n : Nat) (tr : List Event) (s : Conc)
    (hrun : (Conc.start n).run tr = some s) :
    s.crashed = false ∧ s.sset = rangeTube none s.received ∧
    (s.tubeClosed = true →
      s.workers.length = n ∧ (∀ w ∈ s.workers, w = Worker.done) ∧ s.received.Perm s.sent) := by
  have hinv := Conc.Inv_run n tr (Conc.start n) s (Conc.Inv_start n) hrun
  refine ⟨hinv.notCrashed, hinv.accumulator, ?_⟩
  intro hclosed
  have hex := hinv.closedBy hclosed
  have hall := hinv.allDone (Or.inr hex)
  have hp : s.pending = 0 := hinv.closerLate (by simp [hex])
  have hlen : s.workers.length = n := by have := hinv.started; omega
  refine ⟨hlen, hall, ?_⟩
  have hnone : s.workers.filterMap Worker.payload = [] := by
    rw [List.filterMap_eq_nil_iff]
    intro w hw
    rw [hall w hw]
    rfl
  have hfl := hinv.inFlight
  rw [hnone] at hfl
  simpa using hfl

/-- Witness of C10: a complete run for two urls, one source succeeding and one
failing, ends with the channel closed, both goroutines terminated and the one
list received and merged. -/
theorem tube_closed_after_all_fetches_witness :
    (Conc.start 2).run sampleTrace = some sampleFinal ∧ sampleFinal.tubeClosed = true ∧
    (sampleFinal.crashed = false ∧ sampleFinal.sset = rangeTube none sampleFinal.received ∧
      (sampleFinal.tubeClosed = true →
        sampleFinal.workers.length = 2 ∧ (∀ w ∈ sampleFinal.workers, w = Worker.done) ∧
          sampleFinal.received.Perm sampleFinal.sent)) :=
  ⟨by decide, by decide, tube_closed_after_all_fetches 2 sampleTrace sampleFinal (by decide)⟩

/-- Closing early cannot happen: with a goroutine still fetching, `wg.Wait()`
does not return, and before it has returned `close(tube)` cannot run. -/
theorem close_not_enabled_early :
    (Conc.start 2).run [.spawn, .spawn, .startCloser, .fetchErr 1, .wgDone 1, .waitReturns] = none ∧
    (Conc.start 2).run [.spawn, .spawn, .startCloser, .fetchErr 1, .wgDone 1, .closeTube] = none := by
  decide

/-! ### The general merge read off the lists -/

theorem getLast?_cons_getD (n d : Int) (xs : List Int) :
    ((n :: xs).getLast?).getD d = (xs.getLast?).getD n := by
  simp [List.getLast?_cons]

theorem innerLoop_eq_innerSpec (e : Int) (ns : List Int) (s : MergeVars) :
    innerLoop e ns s = innerSpec e ns s := by
  induction ns generalizing s with
  | nil => simp [innerLoop, innerSpec, keepNew]
  | cons n ns ih =>
    by_cases hle : e ≤ n
    · have hnlt : ¬ n < e := not_lt.mpr hle
      by_cases heq : e = n
      · simp [innerLoop, innerSpec, hle, hnlt, heq, keepNew]
      · simp [innerLoop, innerSpec, hle, hnlt, heq, keepNew]
    · have hlt : n < e := not_le.mp hle
      have hne : ¬ e = n := fun h => hle (le_of_eq h)
      by_cases hl : s.l = n
      · rw [innerLoop]
        simp only [hle, if_false, hne, hl, or_true, if_true, false_or]
        rw [ih]
        simp only [innerSpec, List.takeWhile_cons, List.dropWhile_cons, hlt, decide_True, if_true,
          keepNew, hl, getLast?_cons_getD, List.length_cons]
        cases List.dropWhile (fun x => decide (x < e)) ns with
        | nil => simp only [MergeVars.mk.injEq, true_and, and_true]; omega
        | cons m ms => simp only [MergeVars.mk.injEq, true_and, and_true]; omega
      · have hl2 : ¬ n = s.l := fun h => hl h.symm
        rw [innerLoop]
        simp only [hle, if_false, hne, hl, or_false, if_true, false_or]
        rw [ih]
        simp only [innerSpec, List.takeWhile_cons, List.dropWhile_cons, hlt, decide_True, if_true,
          keepNew, hl2, if_false, getLast?_cons_getD, List.length_cons, List.append_assoc,
          List.singleton_append]
        cases List.dropWhile (fun x => decide (x < e)) ns with
        | nil => simp only [MergeVars.mk.injEq, true_and, and_true]; omega
        | cons m ms => simp only [MergeVars.mk.injEq, true_and, and_true]; omega
theorem dropWhile_nil_takeWhile (e : Int) (rest : List Int)
    (h : rest.dropWhile (· < e) = []) : rest.takeWhile (· < e) = rest := by
  have := List.takeWhile_append_dropWhile (fun x => decide (x < e)) rest
  rw [h, List.append_nil] at this
  exact this

theorem outerLoop_eq_mergeTail (sset new : List Int) (es : List Int) :
    ∀ (pre : List Int) (k : Nat) (s : MergeVars) (done rest : List Int),
      sset = pre ++ es → pre.length = k → new = done ++ rest → done.length = s.p →
      (outerLoop sset new k es s).merged ++ uniqFromSorted (new.drop (outerLoop sset new k es s).p)
        = s.merged ++ mergeTail (decide (k ≠ 0)) es rest s.l := by
  induction es with
  | nil =>
    intro pre k s done rest _ _ hn hp
    have hdrop : new.drop s.p = rest := by rw [hn]; exact List.drop_left' hp
    simp [outerLoop, mergeTail, hdrop]
  | cons e es ih =>
    intro pre k s done rest hs hk hn hp
    have hdrop : new.drop s.p = rest := by rw [hn]; exact List.drop_left' hp
    have hs2 : sset = (pre ++ [e]) ++ es := by simp [hs]
    have hk2 : (pre ++ [e]).length = k + 1 := by simp [hk]
    have hlen : new.length = s.p + rest.length := by rw [hn, List.length_append, hp]
    by_cases hskip : s.l = e ∧ k ≠ 0
    · have h1 := ih (pre ++ [e]) (k + 1) s done rest hs2 hk2 hn hp
      rw [outerLoop, if_pos hskip, h1]
      obtain ⟨hl, hk0⟩ := hskip
      simp [mergeTail, hl, hk0]
    · have hskip2 : ¬ (s.l = e ∧ decide (k ≠ 0) = true) := by simpa using hskip
      rw [outerLoop, if_neg hskip, mergeTail, if_neg hskip2]
      simp only [hdrop, innerLoop_eq_innerSpec, innerSpec]
      have htd := List.takeWhile_append_dropWhile (fun x => decide (x < e)) rest
      cases hdw : rest.dropWhile (· < e) with
      | nil =>
        have htw := dropWhile_nil_takeWhile e rest hdw
        have hdk : sset.drop k = e :: es := by rw [hs]; exact List.drop_left' hk
        have hz : List.drop (s.p + rest.length) new = [] := by rw [← hlen]; simp
        simp [htw, hlen, hdk, hz, uniqFromSorted_nil]
      | cons n t =>
        rw [hdw] at htd
        simp only []
        generalize rest.takeWhile (· < e) = low at htd ⊢
        have hrl : rest.length = low.length + 1 + t.length := by
          rw [← htd]; simp; omega
        by_cases hen : e = n
        · subst hen
          by_cases ht : t = []
          · subst ht
            have hpe : s.p + low.length + 1 = new.length := by
              rw [hlen, hrl]; simp; omega
            have hz : List.drop (s.p + low.length + 1) new = [] := by
              rw [hpe]; simp
            have hdk : sset.drop (k + 1) = es := by rw [hs2]; exact List.drop_left' hk2
            simp [hpe, hz, hdk, uniqFromSorted_nil]
          · have htl : 0 < t.length := List.length_pos.2 ht
            have hpe : ¬ s.p + low.length + 1 = new.length := by
              rw [hlen, hrl]; omega
            have hn2 : new = (done ++ low ++ [e]) ++ t := by
              rw [hn, ← htd]; simp
            have h1 := ih (pre ++ [e]) (k + 1)
              { merged := s.merged ++ keepNew s.l low ++ [e],
                p := s.p + low.length + 1, l := e, k := k + 1 }
              (done ++ low ++ [e]) t hs2 hk2 hn2 (by simp [hp]; omega)
            simp only [if_true, hpe, if_false, ht] at h1 ⊢
            rw [h1]
            simp
        · have hpe : ¬ s.p + low.length + 0 = new.length := by
            rw [hlen, hrl]; omega
          have hn2 : new = (done ++ low) ++ n :: t := by
            rw [hn, ← htd]; simp
          have h1 := ih (pre ++ [e]) (k + 1)
            { merged := s.merged ++ keepNew s.l low ++ [e],
              p := s.p + low.length + 0, l := e, k := k + 1 }
            (done ++ low) (n :: t) hs2 hk2 hn2 (by simp [hp])
          simp only [hen, if_false, hpe] at h1 ⊢
          rw [h1]
          simp

theorem generalMerge_eq_mergeTail (sset new : List Int) :
    generalMerge sset new = mergeTail false sset new 0 := by
  have h := outerLoop_eq_mergeTail sset new sset [] 0
    { merged := [], p := 0, l := 0, k := 0 } [] new rfl rfl rfl rfl
  simpa [generalMerge] using h

theorem mem_uniqFromSorted (arr : List Int) (x : Int) : x ∈ uniqFromSorted arr ↔ x ∈ arr := by
  cases arr with
  | nil => simp [uniqFromSorted_nil]
  | cons a vs =>
    rw [uniqFromSorted_cons]
    constructor
    · intro hv
      rcases List.mem_cons.1 hv with hv | hv
      · simp [hv]
      · exact List.mem_cons_of_mem _ ((keepNew_sublist a vs).subset hv)
    · intro hv
      rcases List.mem_cons.1 hv with hv | hv
      · simp [hv]
      · rcases mem_keepNew a vs x hv with h1 | h1
        · simp [h1]
        · exact List.mem_cons_of_mem _ h1

theorem uniqFromSorted_sublist (arr : List Int) : (uniqFromSorted arr).Sublist arr := by
  cases arr with
  | nil => simp [uniqFromSorted_nil]
  | cons a vs =>
    rw [uniqFromSorted_cons]
    exact (keepNew_sublist a vs).cons₂ a

theorem mem_takeWhile_lt (e : Int) (rest : List Int) (x : Int)
    (h : x ∈ rest.takeWhile (· < e)) : x < e ∧ x ∈ rest := by
  refine ⟨?_, (List.takeWhile_sublist _).subset h⟩
  have := List.mem_takeWhile_imp h
  simpa using this

theorem dropWhile_cons_head (e : Int) (rest : List Int) (n : Int) (t : List Int)
    (h : rest.dropWhile (· < e) = n :: t) :
    e ≤ n ∧ rest = rest.takeWhile (· < e) ++ n :: t := by
  constructor
  · have h1 := List.head_dropWhile_not (fun x => decide (x < e)) rest
      (by rw [h]; simp)
    simp only [h, List.head_cons] at h1
    simpa using h1
  · rw [← h, List.takeWhile_append_dropWhile]

/-- Every value the general merge produces comes from one of the two lists. -/
theorem mem_of_mem_mergeTail (es : List Int) :
    ∀ (nz : Bool) (rest : List Int) (l x : Int),
      x ∈ mergeTail nz es rest l → x ∈ es ∨ x ∈ rest := by
  induction es with
  | nil =>
    intro nz rest l x hx
    rw [mergeTail, mem_uniqFromSorted] at hx
    exact Or.inr hx
  | cons e es ih =>
    intro nz rest l x hx
    rw [mergeTail] at hx
    have hlow : ∀ y ∈ keepNew l (rest.takeWhile (· < e)), y ∈ rest := fun y hy =>
      (mem_takeWhile_lt e rest y ((keepNew_sublist _ _).subset hy)).2
    split at hx
    · rcases ih true rest l x hx with h | h
      · exact Or.inl (List.mem_cons_of_mem _ h)
      · exact Or.inr h
    · split at hx
      · rcases List.mem_append.1 hx with h | h
        · exact Or.inr (hlow x h)
        · exact Or.inl h
      · rename_i n t hdw
        obtain ⟨-, hrest⟩ := dropWhile_cons_head e rest n t hdw
        have ht : ∀ y ∈ t, y ∈ rest := fun y hy => by
          rw [hrest]; exact List.mem_append_right _ (List.mem_cons_of_mem _ hy)
        have hnt : ∀ y ∈ n :: t, y ∈ rest := fun y hy => by
          rw [hrest]; exact List.mem_append_right _ hy
        split at hx
        · split at hx
          · rcases List.mem_append.1 hx with h | h
            · exact Or.inr (hlow x h)
            · exact Or.inl h
          · rcases List.mem_append.1 hx with h | h
            · exact Or.inr (hlow x h)
            · rcases List.mem_cons.1 h with h | h
              · exact Or.inl (by simp [h])
              · rcases ih true t e x h with h | h
                · exact Or.inl (List.mem_cons_of_mem _ h)
                · exact Or.inr (ht x h)
        · rcases List.mem_append.1 hx with h | h
          · exact Or.inr (hlow x h)
          · rcases List.mem_cons.1 h with h | h
            · exact Or.inl (by simp [h])
            · rcases ih true (n :: t) e x h with h | h
              · exact Or.inl (List.mem_cons_of_mem _ h)
              · exact Or.inr (hnt x h)

/-- Every element of `sset` still to visit is in what the general merge
produces, unless it equals `l` past index 0, when it is in `merged` already. -/
theorem mem_mergeTail_of_mem_left (es : List Int) :
    ∀ (nz : Bool) (rest : List Int) (l x : Int),
      x ∈ es → x ∈ mergeTail nz es rest l ∨ (nz = true ∧ x = l) := by
  induction es with
  | nil => intro nz rest l x hx; simp at hx
  | cons e es ih =>
    intro nz rest l x hx
    rw [mergeTail]
    split
    · rename_i hskip
      rcases List.mem_cons.1 hx with h | h
      · exact Or.inr ⟨hskip.2, h.trans hskip.1.symm⟩
      · rcases ih true rest l x h with h1 | h1
        · exact Or.inl h1
        · exact Or.inr ⟨hskip.2, h1.2⟩
    · left
      split
      · exact List.mem_append_right _ hx
      · split
        · split
          · exact List.mem_append_right _ hx
          · rename_i t _ _ _
            refine List.mem_append_right _ ?_
            rcases List.mem_cons.1 hx with h | h
            · simp [h]
            · rcases ih true t e x h with h1 | h1
              · exact List.mem_cons_of_mem _ h1
              · simp [h1.2]
        · rename_i n t _ _
          refine List.mem_append_right _ ?_
          rcases List.mem_cons.1 hx with h | h
          · simp [h]
          · rcases ih true (n :: t) e x h with h1 | h1
            · exact List.mem_cons_of_mem _ h1
            · simp [h1.2]

/-- Every value of `new[p:]` is in what the general merge produces, unless it
equals `l`. -/
theorem mem_mergeTail_of_mem_right (es : List Int) :
    ∀ (nz : Bool) (rest : List Int) (l x : Int),
      x ∈ rest → x ∈ mergeTail nz es rest l ∨ x = l := by
  induction es with
  | nil =>
    intro nz rest l x hx
    rw [mergeTail, mem_uniqFromSorted]
    exact Or.inl hx
  | cons e es ih =>
    intro nz rest l x hx
    rw [mergeTail]
    split
    · exact ih true rest l x hx
    · have hsplit := List.takeWhile_append_dropWhile (fun y => decide (y < e)) rest
      rw [← hsplit] at hx
      rcases List.mem_append.1 hx with hx | hx
      · rcases mem_keepNew l _ x hx with h | h
        · exact Or.inr h
        · left
          split
          · exact List.mem_append_left _ h
          · split
            · split
              · exact List.mem_append_left _ h
              · exact List.mem_append_left _ h
            · exact List.mem_append_left _ h
      · left
        split
        · rename_i hdw
          rw [hdw] at hx
          simp at hx
        · rename_i n t hdw
          rw [hdw] at hx
          split
          · rename_i hen
            split
            · rename_i ht
              subst ht
              rcases List.mem_cons.1 hx with h | h
              · exact List.mem_append_right _ (by simp [h, hen])
              · simp at h
            · refine List.mem_append_right _ ?_
              rcases List.mem_cons.1 hx with h | h
              · simp [h, hen]
              · rcases ih true t e x h with h1 | h1
                · exact List.mem_cons_of_mem _ h1
                · simp [h1]
          · refine List.mem_append_right _ ?_
            rcases ih true (n :: t) e x hx with h1 | h1
            · exact List.mem_cons_of_mem _ h1
            · simp [h1]

/-- The general merge keeps the order of its inputs, for the order `R` being
`≤` or `<`: if both lists are sorted by `R`, and past index 0 the last value
emitted `l` is `R`-below everything still to come, then what the merge appends
is sorted by `R` and, past index 0, `R`-above `l`. -/
theorem mergeTail_sorted (R : Int → Int → Prop)
    (hR1 : ∀ a b, a < b → R a b) (hR2 : ∀ a b c, a ≤ b → R b c → R a c)
    (hR3 : ∀ a b, R a b → a ≤ b) (es : List Int) :
    ∀ (nz : Bool) (rest : List Int) (l : Int),
      es.Pairwise R → rest.Pairwise R →
      (nz = true → (∀ y ∈ es, R l y) ∧ (∀ y ∈ rest, R l y)) →
      (mergeTail nz es rest l).Pairwise R ∧
        (nz = true → ∀ y ∈ mergeTail nz es rest l, R l y) := by
  induction es with
  | nil =>
    intro nz rest l _ hrest hnz
    rw [mergeTail]
    refine ⟨hrest.sublist (uniqFromSorted_sublist rest), ?_⟩
    intro h y hy
    exact (hnz h).2 y ((mem_uniqFromSorted rest y).1 hy)
  | cons e es ih =>
    intro nz rest l hes hrest hnz
    have hes1 : es.Pairwise R := hes.of_cons
    have hees : ∀ y ∈ es, R e y := fun y hy => List.rel_of_pairwise_cons hes hy
    rw [mergeTail]
    split
    · rename_i hskip
      have hnz1 := hnz hskip.2
      have h := ih true rest l hes1 hrest
        (fun _ => ⟨fun y hy => hnz1.1 y (List.mem_cons_of_mem _ hy), hnz1.2⟩)
      exact ⟨h.1, fun _ => h.2 rfl⟩
    · -- the part every exit shares: the values of `rest` below `e`
      have hlowlt : ∀ y ∈ keepNew l (rest.takeWhile (· < e)), y < e := fun y hy =>
        (mem_takeWhile_lt e rest y ((keepNew_sublist _ _).subset hy)).1
      have hlowrest : ∀ y ∈ keepNew l (rest.takeWhile (· < e)), y ∈ rest := fun y hy =>
        (mem_takeWhile_lt e rest y ((keepNew_sublist _ _).subset hy)).2
      have hlowsorted : (keepNew l (rest.takeWhile (· < e))).Pairwise R :=
        hrest.sublist ((keepNew_sublist _ _).trans (List.takeWhile_sublist _))
      -- shape of every exit: the low values, then `e`, then a list `R`-above `e`
      have key : ∀ X : List Int, X.Pairwise R → (∀ y ∈ X, R e y) →
          (keepNew l (rest.takeWhile (· < e)) ++ e :: X).Pairwise R ∧
          (nz = true → ∀ y ∈ keepNew l (rest.takeWhile (· < e)) ++ e :: X, R l y) := by
        intro X hX hXe
        constructor
        · rw [List.pairwise_append]
          refine ⟨hlowsorted, List.pairwise_cons.2 ⟨hXe, hX⟩, ?_⟩
          intro a ha b hb
          rcases List.mem_cons.1 hb with hb | hb
          · rw [hb]; exact hR1 _ _ (hlowlt a ha)
          · exact hR2 _ _ _ (le_of_lt (hlowlt a ha)) (hXe b hb)
        · intro h y hy
          have hnz1 := hnz h
          have hle : R l e := hnz1.1 e (List.mem_cons_self _ _)
          rcases List.mem_append.1 hy with hy | hy
          · exact hnz1.2 y (hlowrest y hy)
          · rcases List.mem_cons.1 hy with hy | hy
            · rw [hy]; exact hle
            · exact hR2 _ _ _ (hR3 _ _ hle) (hXe y hy)
      split
      · exact key es hes1 hees
      · rename_i n t hdw
        obtain ⟨hen, hrest2⟩ := dropWhile_cons_head e rest n t hdw
        have hnt : (n :: t).Pairwise R := by
          rw [hrest2] at hrest
          exact (List.pairwise_append.1 hrest).2.1
        have ht : t.Pairwise R := hnt.of_cons
        have hnt2 : ∀ y ∈ t, R n y := fun y hy => List.rel_of_pairwise_cons hnt hy
        split
        · rename_i heq
          split
          · exact key es hes1 hees
          · have h := ih true t e hes1 ht
              (fun _ => ⟨hees, fun y hy => heq ▸ hnt2 y hy⟩)
            exact key _ h.1 (h.2 rfl)
        · rename_i hne
          have hlt : e < n := lt_of_le_of_ne hen hne
          have h := ih true (n :: t) e hes1 hnt
            (fun _ => ⟨hees, fun y hy => by
              rcases List.mem_cons.1 hy with hy | hy
              · rw [hy]; exact hR1 _ _ hlt
              · exact hR2 _ _ _ hen (hnt2 y hy)⟩)
          exact key _ h.1 (h.2 rfl)

theorem generalMerge_sorted (R : Int → Int → Prop)
    (hR1 : ∀ a b, a < b → R a b) (hR2 : ∀ a b c, a ≤ b → R b c → R a c)
    (hR3 : ∀ a b, R a b → a ≤ b) (sset new : List Int)
    (hs : sset.Pairwise R) (hn : new.Pairwise R) : (generalMerge sset new).Pairwise R := by
  rw [generalMerge_eq_mergeTail]
  exact (mergeTail_sorted R hR1 hR2 hR3 sset false new 0 hs hn (by simp)).1

theorem mem_generalMerge (sset new : List Int) (x : Int) (h : x ∈ generalMerge sset new) :
    x ∈ sset ∨ x ∈ new := by
  rw [generalMerge_eq_mergeTail] at h
  exact mem_of_mem_mergeTail sset false new 0 x h

theorem mem_generalMerge_of_mem_left (sset new : List Int) (x : Int) (h : x ∈ sset) :
    x ∈ generalMerge sset new := by
  rw [generalMerge_eq_mergeTail]
  rcases mem_mergeTail_of_mem_left sset false new 0 x h with h1 | h1
  · exact h1
  · simp at h1

theorem mem_generalMerge_of_mem_right (sset new : List Int) (x : Int) (h : x ∈ new) :
    x ∈ generalMerge sset new ∨ x = 0 := by
  rw [generalMerge_eq_mergeTail]
  exact mem_mergeTail_of_mem_right sset false new 0 x h

/-! ### One turn of the loop over the channel -/

theorem at_zero_le (R : Int → Int → Prop) (hR3 : ∀ a b, R a b → a ≤ b) (xs : List Int)
    (h : xs.Pairwise R) (x : Int) (hx : x ∈ xs) : at_ xs 0 ≤ x := by
  cases xs with
  | nil => simp at hx
  | cons a t =>
    rcases List.mem_cons.1 hx with hx | hx
    · simp [at_, hx]
    · simpa [at_] using hR3 _ _ (List.rel_of_pairwise_cons h hx)

theorem at_last_concat (ys : List Int) (z : Int) :
    at_ (ys ++ [z]) ((ys ++ [z]).length - 1) = z := by
  simp [at_, List.getD_eq_getElem?_getD]

theorem le_at_last (R : Int → Int → Prop) (hR3 : ∀ a b, R a b → a ≤ b) (xs : List Int)
    (h : xs.Pairwise R) (x : Int) (hx : x ∈ xs) : x ≤ at_ xs (xs.length - 1) := by
  rcases List.eq_nil_or_concat xs with hnil | ⟨ys, z, hxs⟩
  · simp [hnil] at hx
  · rw [List.concat_eq_append] at hxs
    subst hxs
    rw [at_last_concat]
    rcases List.mem_append.1 hx with hx | hx
    · exact hR3 _ _ ((List.pairwise_append.1 h).2.2 x hx z (by simp))
    · simp at hx; simp [hx]

theorem at_zero_uniqFromSorted (new : List Int) : at_ (uniqFromSorted new) 0 = at_ new 0 := by
  cases new with
  | nil => simp [uniqFromSorted_nil]
  | cons v vs => simp [uniqFromSorted_cons, at_]

theorem mem_sortInts (arr : List Int) (x : Int) : x ∈ sortInts arr ↔ x ∈ arr :=
  (List.perm_insertionSort (· ≤ ·) arr).mem_iff

theorem sortInts_sorted (arr : List Int) : (sortInts arr).Pairwise (· ≤ ·) :=
  List.sorted_insertionSort (· ≤ ·) arr

theorem sortInts_strict (arr : List Int) (h : arr.Nodup) : (sortInts arr).Pairwise (· < ·) :=
  List.Sorted.lt_of_le (List.sorted_insertionSort (· ≤ ·) arr)
    ((List.perm_insertionSort (· ≤ ·) arr).nodup_iff.2 h)

theorem sortInts_length (arr : List Int) : (sortInts arr).length = arr.length :=
  (List.perm_insertionSort (· ≤ ·) arr).length_eq

theorem mergeSorted_sorted (R : Int → Int → Prop)
    (hR1 : ∀ a b, a < b → R a b) (hR2 : ∀ a b c, a ≤ b → R b c → R a c)
    (hR3 : ∀ a b, R a b → a ≤ b) (sset new : List Int)
    (hs : sset.Pairwise R) (hn : new.Pairwise R) : (mergeSorted sset new).Pairwise R := by
  have hu : (uniqFromSorted new).Pairwise R := hn.sublist (uniqFromSorted_sublist new)
  unfold mergeSorted
  split
  · exact hu
  · split
    · rename_i hlt
      rw [List.pairwise_append]
      refine ⟨hs, hu, ?_⟩
      intro a ha b hb
      have h1 := le_at_last R hR3 sset hs a ha
      have h2 := at_zero_le R hR3 new hn b ((mem_uniqFromSorted new b).1 hb)
      exact hR1 _ _ (lt_of_le_of_lt h1 (lt_of_lt_of_le hlt h2))
    · split
      · rename_i hlt
        rw [List.pairwise_append]
        refine ⟨hu, hs, ?_⟩
        intro a ha b hb
        have h1 := le_at_last R hR3 new hn a ((mem_uniqFromSorted new a).1 ha)
        have h2 := at_zero_le R hR3 sset hs b hb
        exact hR1 _ _ (lt_of_le_of_lt h1 (lt_of_lt_of_le hlt h2))
      · exact generalMerge_sorted R hR1 hR2 hR3 sset new hs hn

theorem mem_mergeSorted (sset new : List Int) (x : Int) (h : x ∈ mergeSorted sset new) :
    x ∈ sset ∨ x ∈ new := by
  unfold mergeSorted at h
  split at h
  · exact Or.inr ((mem_uniqFromSorted new x).1 h)
  · split at h
    · rcases List.mem_append.1 h with h | h
      · exact Or.inl h
      · exact Or.inr ((mem_uniqFromSorted new x).1 h)
    · split at h
      · rcases List.mem_append.1 h with h | h
        · exact Or.inr ((mem_uniqFromSorted new x).1 h)
        · exact Or.inl h
      · exact mem_generalMerge sset new x h

theorem mem_mergeSorted_of_mem_left (sset new : List Int) (x : Int) (h : x ∈ sset) :
    x ∈ mergeSorted sset new := by
  unfold mergeSorted
  split
  · rename_i h0
    rw [List.length_eq_zero.1 h0] at h
    simp at h
  · split
    · exact List.mem_append_left _ h
    · split
      · exact List.mem_append_right _ h
      · exact mem_generalMerge_of_mem_left sset new x h

theorem mem_mergeSorted_of_mem_right (sset new : List Int) (x : Int) (h : x ∈ new) :
    x ∈ mergeSorted sset new ∨ x = 0 := by
  have hu : x ∈ uniqFromSorted new := (mem_uniqFromSorted new x).2 h
  unfold mergeSorted
  split
  · exact Or.inl hu
  · split
    · exact Or.inl (List.mem_append_right _ hu)
    · split
      · exact Or.inl (List.mem_append_left _ hu)
      · exact mem_generalMerge_of_mem_right sset new x h

theorem mem_loopBody (sset : Slice) (new : List Int) (x : Int)
    (h : x ∈ (loopBody sset new).elems) : x ∈ sset.elems ∨ x ∈ new := by
  unfold loopBody at h
  split at h
  · exact Or.inl h
  · rcases mem_mergeSorted _ _ x h with h1 | h1
    · exact Or.inl h1
    · exact Or.inr ((mem_sortInts new x).1 h1)

theorem mem_loopBody_of_mem_left (sset : Slice) (new : List Int) (x : Int)
    (h : x ∈ sset.elems) : x ∈ (loopBody sset new).elems := by
  unfold loopBody
  split
  · exact h
  · exact mem_mergeSorted_of_mem_left _ _ x h

theorem mem_loopBody_of_mem_right (sset : Slice) (new : List Int) (x : Int)
    (h : x ∈ new) : x ∈ (loopBody sset new).elems ∨ x = 0 := by
  unfold loopBody
  split
  · rename_i h0
    rw [List.length_eq_zero.1 h0] at h
    simp at h
  · exact mem_mergeSorted_of_mem_right _ _ x ((mem_sortInts new x).2 h)

theorem loopBody_sorted_le (sset : Slice) (new : List Int)
    (hs : sset.elems.Pairwise (· ≤ ·)) : (loopBody sset new).elems.Pairwise (· ≤ ·) := by
  unfold loopBody
  split
  · exact hs
  · exact mergeSorted_sorted (· ≤ ·) (fun _ _ h => le_of_lt h) (fun _ _ _ h1 h2 => le_trans h1 h2)
      (fun _ _ h => h) _ _ hs (sortInts_sorted new)

theorem loopBody_sorted_lt (sset : Slice) (new : List Int)
    (hs : sset.elems.Pairwise (· < ·)) (hn : new.Nodup) :
    (loopBody sset new).elems.Pairwise (· < ·) := by
  unfold loopBody
  split
  · exact hs
  · exact mergeSorted_sorted (· < ·) (fun _ _ h => h) (fun _ _ _ h1 h2 => lt_of_le_of_lt h1 h2)
      (fun _ _ h => le_of_lt h) _ _ hs (sortInts_strict new hn)

/-! ### The loop over the channel -/

theorem eq_sortedUnion (xs : List Int) (ls : List (List Int))
    (hs : xs.Pairwise (· < ·)) (hmem : ∀ x, x ∈ xs ↔ ∃ new ∈ ls, x ∈ new) :
    xs = sortedUnion ls := by
  have hnd : xs.Nodup := List.Sorted.nodup (r := (· < ·)) hs
  have hnd2 : (sortedUnion ls).Nodup :=
    (List.perm_insertionSort (· ≤ ·) _).nodup_iff.2 (List.nodup_dedup _)
  have hperm : xs.Perm (sortedUnion ls) := by
    rw [List.perm_ext_iff_of_nodup hnd hnd2]
    intro x
    rw [hmem, sortedUnion, (List.perm_insertionSort (· ≤ ·) _).mem_iff, List.mem_dedup,
      List.mem_flatten]
  exact List.eq_of_perm_of_sorted hperm (List.Sorted.le_of_lt hs)
    (List.sorted_insertionSort (· ≤ ·) _)

theorem rangeTube_cons (sset : Slice) (new : List Int) (tube : List (List Int)) :
    rangeTube sset (new :: tube) = rangeTube (loopBody sset new) tube := rfl

theorem rangeTube_mem (tube : List (List Int)) :
    ∀ (sset : Slice) (x : Int), x ∈ (rangeTube sset tube).elems →
      x ∈ sset.elems ∨ ∃ new ∈ tube, x ∈ new := by
  induction tube with
  | nil => intro sset x hx; exact Or.inl hx
  | cons new tube ih =>
    intro sset x hx
    rw [rangeTube_cons] at hx
    rcases ih _ x hx with h | ⟨l, hl, hxl⟩
    · rcases mem_loopBody sset new x h with h1 | h1
      · exact Or.inl h1
      · exact Or.inr ⟨new, List.mem_cons_self _ _, h1⟩
    · exact Or.inr ⟨l, List.mem_cons_of_mem _ hl, hxl⟩

theorem rangeTube_mem_of_mem_left (tube : List (List Int)) :
    ∀ (sset : Slice) (x : Int), x ∈ sset.elems → x ∈ (rangeTube sset tube).elems := by
  induction tube with
  | nil => intro sset x hx; exact hx
  | cons new tube ih =>
    intro sset x hx
    rw [rangeTube_cons]
    exact ih _ x (mem_loopBody_of_mem_left sset new x hx)

theorem rangeTube_mem_of_mem_right (tube : List (List Int)) :
    ∀ (sset : Slice) (x : Int) (new : List Int), new ∈ tube → x ∈ new →
      x ∈ (rangeTube sset tube).elems ∨ x = 0 := by
  induction tube with
  | nil => intro sset x new hn; simp at hn
  | cons l tube ih =>
    intro sset x new hn hx
    rw [rangeTube_cons]
    rcases List.mem_cons.1 hn with hn | hn
    · subst hn
      rcases mem_loopBody_of_mem_right sset new x hx with h | h
      · exact Or.inl (rangeTube_mem_of_mem_left tube _ x h)
      · exact Or.inr h
    · exact ih _ x new hn hx

theorem rangeTube_sorted_le (tube : List (List Int)) :
    ∀ (sset : Slice), sset.elems.Pairwise (· ≤ ·) →
      (rangeTube sset tube).elems.Pairwise (· ≤ ·) := by
  induction tube with
  | nil => intro sset hs; exact hs
  | cons new tube ih =>
    intro sset hs
    rw [rangeTube_cons]
    exact ih _ (loopBody_sorted_le sset new hs)

theorem rangeTube_sorted_lt (tube : List (List Int)) :
    ∀ (sset : Slice), sset.elems.Pairwise (· < ·) → (∀ new ∈ tube, new.Nodup) →
      (rangeTube sset tube).elems.Pairwise (· < ·) := by
  induction tube with
  | nil => intro sset hs _; exact hs
  | cons new tube ih =>
    intro sset hs hnd
    rw [rangeTube_cons]
    exact ih _ (loopBody_sorted_lt sset new hs (hnd new (List.mem_cons_self _ _)))
      (fun l hl => hnd l (List.mem_cons_of_mem _ hl))

theorem mergeAll_eq_sortedUnion (tube : List (List Int))
    (h : ∀ new ∈ tube, (0 : Int) ∉ new ∧ new.Nodup) :
    (mergeAll tube).elems.Pairwise (· < ·) ∧ (mergeAll tube).elems = sortedUnion tube := by
  have hs : (mergeAll tube).elems.Pairwise (· < ·) :=
    rangeTube_sorted_lt tube none (by simp [Slice.elems]) (fun new hn => (h new hn).2)
  refine ⟨hs, eq_sortedUnion _ tube hs ?_⟩
  intro x
  constructor
  · intro hx
    rcases rangeTube_mem tube none x hx with h1 | h1
    · simp [Slice.elems] at h1
    · exact h1
  · rintro ⟨new, hn, hx⟩
    rcases rangeTube_mem_of_mem_right tube none x new hn hx with h1 | h1
    · exact h1
    · exact absurd (h1 ▸ hx) (h new hn).1

/-- C16. If no incoming list contains 0 and no incoming list repeats a value,
the final accumulator is the ascending duplicate-free union of the lists, the
accumulator is strictly ascending after every step, and every other arrival
order of the same lists ends in the same accumulator. -/
theorem merge_correct_without_zero_and_repeats (tube : List (List Int))
    (h : ∀ new ∈ tube, (0 : Int) ∉ new ∧ new.Nodup) :
    (mergeAll tube).elems = sortedUnion tube ∧
    (∀ n, (mergeAll (tube.take n)).elems.Sorted (· < ·)) ∧
    (∀ tube2 : List (List Int), tube2.Perm tube →
      (mergeAll tube2).elems = (mergeAll tube).elems) := by
  refine ⟨(mergeAll_eq_sortedUnion tube h).2, ?_, ?_⟩
  · intro n
    exact (mergeAll_eq_sortedUnion (tube.take n)
      (fun new hn => h new (List.mem_of_mem_take hn))).1
  · intro tube2 hp
    have h2 : ∀ new ∈ tube2, (0 : Int) ∉ new ∧ new.Nodup := fun new hn => h new (hp.mem_iff.1 hn)
    have hr2 := mergeAll_eq_sortedUnion tube2 h2
    rw [(mergeAll_eq_sortedUnion tube h).2]
    refine eq_sortedUnion _ tube hr2.1 ?_
    intro x
    rw [hr2.2, sortedUnion, (List.perm_insertionSort (· ≤ ·) _).mem_iff, List.mem_dedup,
      List.mem_flatten]
    constructor
    · rintro ⟨l, hl, hx⟩; exact ⟨l, hp.mem_iff.1 hl, hx⟩
    · rintro ⟨l, hl, hx⟩; exact ⟨l, hp.mem_iff.2 hl, hx⟩

/-- Witness of C16: three lists without 0 and without repeats, two of them
overlapping, merged through the general branch. -/
theorem merge_correct_without_zero_and_repeats_witness :
    (∀ new ∈ ([[3, -1, 7], [7, 2, 3], [10, 12]] : List (List Int)), (0 : Int) ∉ new ∧ new.Nodup) ∧
    (mergeAll [[3, -1, 7], [7, 2, 3], [10, 12]]).elems = [-1, 2, 3, 7, 10, 12] ∧
    ((mergeAll [[3, -1, 7], [7, 2, 3], [10, 12]]).elems
        = sortedUnion [[3, -1, 7], [7, 2, 3], [10, 12]] ∧
      (∀ n, (mergeAll (([[3, -1, 7], [7, 2, 3], [10, 12]] : List (List Int)).take n)).elems.Sorted
        (· < ·)) ∧
      (∀ tube2 : List (List Int), tube2.Perm [[3, -1, 7], [7, 2, 3], [10, 12]] →
        (mergeAll tube2).elems = (mergeAll [[3, -1, 7], [7, 2, 3], [10, 12]]).elems)) :=
  ⟨by decide, by decide,
    merge_correct_without_zero_and_repeats [[3, -1, 7], [7, 2, 3], [10, 12]] (by decide)⟩

/-- C17. Every integer in the accumulator, at the end and after any number of
steps, occurs in one of the incoming lists processed so far. -/
theorem no_invented_values (tube : List (List Int)) :
    (∀ x ∈ (mergeAll tube).elems, ∃ new ∈ tube, x ∈ new) ∧
    (∀ (n : Nat), ∀ x ∈ (mergeAll (tube.take n)).elems, ∃ new ∈ tube.take n, x ∈ new) := by
  have key : ∀ t : List (List Int), ∀ x ∈ (mergeAll t).elems, ∃ new ∈ t, x ∈ new := by
    intro t x hx
    rcases rangeTube_mem t none x hx with h1 | h1
    · simp [Slice.elems] at h1
    · exact h1
  exact ⟨key tube, fun n => key (tube.take n)⟩

/-- Witness of C17 on lists with a repeat and a zero. -/
theorem no_invented_values_witness :
    (mergeAll [[1, 5], [5, 5], [0, 3]]).elems = [1, 3, 5, 5] ∧
    ∀ x ∈ (mergeAll [[1, 5], [5, 5], [0, 3]]).elems,
      ∃ new ∈ ([[1, 5], [5, 5], [0, 3]] : List (List Int)), x ∈ new :=
  ⟨by decide, (no_invented_values [[1, 5], [5, 5], [0, 3]]).1⟩

/-- C18. A value in the accumulator before a step is in it after the step,
whatever list comes in; in particular the general merge emits every element
of `sset`. -/
theorem accumulated_values_kept (tube : List (List Int)) (new : List Int) :
    (∀ x ∈ (mergeAll tube).elems, x ∈ (loopBody (mergeAll tube) new).elems) ∧
    (∀ x ∈ (mergeAll tube).elems, x ∈ generalMerge (mergeAll tube).elems (sortInts new)) :=
  ⟨fun x hx => mem_loopBody_of_mem_left _ new x hx,
    fun x hx => mem_generalMerge_of_mem_left _ _ x hx⟩

/-- Witness of C18: the step from `[1,5]` with `[5,5]` takes the general
merge and keeps 1 and 5. -/
theorem accumulated_values_kept_witness :
    mergeAll [[1, 5]] = some [1, 5] ∧ loopBody (mergeAll [[1, 5]]) [5, 5] = some [1, 5, 5] ∧
    ∀ x ∈ (mergeAll [[1, 5]]).elems, x ∈ (loopBody (mergeAll [[1, 5]]) [5, 5]).elems :=
  ⟨by decide, by decide, (accumulated_values_kept [[1, 5]] [5, 5]).1⟩

/-- C19. The accumulator is non-decreasing after every step, whatever the
incoming lists hold, so the numbers a response carries are in non-decreasing
order. -/
theorem accumulator_non_decreasing (tube : List (List Int)) :
    (∀ n, (mergeAll (tube.take n)).elems.Sorted (· ≤ ·)) ∧
    (mergeAll tube).elems.Sorted (· ≤ ·) ∧
    (∀ (w : World) (r : Request), r.Path = "/numbers" → r.u ≠ [] →
      (handler w r).Body = Encode { Numbers := mergeAll (handler w r).received } ∧
      (mergeAll (handler w r).received).elems.Sorted (· ≤ ·)) := by
  have key : ∀ t : List (List Int), (mergeAll t).elems.Sorted (· ≤ ·) := fun t =>
    rangeTube_sorted_le t none (by simp [Slice.elems])
  refine ⟨fun n => key _, key tube, ?_⟩
  intro w r hp hu
  rw [handler_of_valid w r hp hu]
  exact ⟨rfl, key _⟩

/-- Witness of C19 on lists with a repeat and a zero, through the general
merge: the accumulator ends as `[1,3,5,5]`. -/
theorem accumulator_non_decreasing_witness :
    (mergeAll [[1, 5], [5, 5], [0, 3]]).elems = [1, 3, 5, 5] ∧
    (mergeAll [[1, 5], [5, 5], [0, 3]]).elems.Sorted (· ≤ ·) :=
  ⟨by decide, (accumulator_non_decreasing [[1, 5], [5, 5], [0, 3]]).2.1⟩

/-! ### The branches before the general merge -/

theorem at_last_eq_getLast? (xs : List Int) :
    at_ xs (xs.length - 1) = (xs.getLast?).getD 0 := by
  simp [at_, List.getD_eq_getElem?_getD, List.getLast?_eq_getElem?]

theorem getLast?_keepNew (v : Int) (vs : List Int) :
    (v :: keepNew v vs).getLast? = (v :: vs).getLast? := by
  induction vs generalizing v with
  | nil => simp [keepNew]
  | cons x xs ih =>
    by_cases h : x = v
    · simp only [keepNew, h, if_true, List.getLast?_cons_cons]
      have := ih v
      rw [this]
    · simp only [keepNew, h, if_false, List.getLast?_cons_cons]
      exact ih x

theorem at_last_uniqFromSorted (new : List Int) :
    at_ (uniqFromSorted new) ((uniqFromSorted new).length - 1) = at_ new (new.length - 1) := by
  cases new with
  | nil => simp [uniqFromSorted_nil]
  | cons v vs =>
    rw [at_last_eq_getLast?, at_last_eq_getLast?, uniqFromSorted_cons, getLast?_keepNew]

theorem uniqFromSorted_strict (arr : List Int) (h : arr.Pairwise (· ≤ ·)) :
    (uniqFromSorted arr).Pairwise (· < ·) := by
  cases arr with
  | nil => simp [uniqFromSorted_nil]
  | cons a vs =>
    rw [uniqFromSorted_cons]
    exact keepNew_sorted a vs h

theorem at_zero_le_at_last (xs : List Int) (hne : xs ≠ []) (h : xs.Pairwise (· ≤ ·)) :
    at_ xs 0 ≤ at_ xs (xs.length - 1) := by
  cases xs with
  | nil => exact absurd rfl hne
  | cons a t =>
    exact le_at_last (· ≤ ·) (fun _ _ h => h) (a :: t) h (at_ (a :: t) 0) (by simp [at_])

theorem loopBody_of_nonempty (sset : Slice) (L : List Int) (hL : L ≠ []) :
    loopBody sset L = some (mergeSorted sset.elems (sortInts L)) := by
  have : ¬ L.length = 0 := fun h => hL (List.length_eq_zero.1 h)
  simp [loopBody, this]

theorem sortInts_ne_nil (L : List Int) (hL : L ≠ []) : sortInts L ≠ [] := by
  intro h
  have := sortInts_length L
  rw [h] at this
  exact hL (List.length_eq_zero.1 this.symm)

/-- C13. With a non-empty strictly ascending accumulator `A` and a non-empty
incoming list `L` whose normal form is `uniqFromSorted (sortInts L)`: if the
last element of `A` is below the first of the normal form, the new accumulator
is `A` followed by the normal form; if the last of the normal form is below the
first of `A`, it is the normal form followed by `A`; and in both cases it is
strictly ascending and is the sorted unique union of `A` and `L`. -/
theorem disjoint_fast_paths (A L : List Int) (hA : A ≠ []) (hAs : A.Sorted (· < ·))
    (hL : L ≠ []) :
    (at_ A (A.length - 1) < at_ (uniqFromSorted (sortInts L)) 0 →
      loopBody (some A) L = some (A ++ uniqFromSorted (sortInts L))) ∧
    (at_ (uniqFromSorted (sortInts L)) ((uniqFromSorted (sortInts L)).length - 1) < at_ A 0 →
      loopBody (some A) L = some (uniqFromSorted (sortInts L) ++ A)) ∧
    (at_ A (A.length - 1) < at_ (uniqFromSorted (sortInts L)) 0 ∨
        at_ (uniqFromSorted (sortInts L)) ((uniqFromSorted (sortInts L)).length - 1) < at_ A 0 →
      (loopBody (some A) L).elems.Sorted (· < ·) ∧
      (loopBody (some A) L).elems = sortedUnion [A, L]) := by
  have hlen : ¬ A.length = 0 := fun h => hA (List.length_eq_zero.1 h)
  have hnew := sortInts_ne_nil L hL
  have hnews := sortInts_sorted L
  have hAle : A.Pairwise (· ≤ ·) := List.Sorted.le_of_lt hAs
  have h1 : at_ A (A.length - 1) < at_ (uniqFromSorted (sortInts L)) 0 →
      loopBody (some A) L = some (A ++ uniqFromSorted (sortInts L)) := by
    intro h
    rw [at_zero_uniqFromSorted] at h
    rw [loopBody_of_nonempty _ L hL]
    simp [mergeSorted, Slice.elems, hlen, h]
  have h2 : at_ (uniqFromSorted (sortInts L)) ((uniqFromSorted (sortInts L)).length - 1) < at_ A 0 →
      loopBody (some A) L = some (uniqFromSorted (sortInts L) ++ A) := by
    intro h
    rw [at_last_uniqFromSorted] at h
    have hn1 : ¬ at_ A (A.length - 1) < at_ (sortInts L) 0 := by
      have ha := at_zero_le_at_last A hA hAle
      have hb := at_zero_le_at_last (sortInts L) hnew hnews
      intro hc
      exact absurd (lt_of_le_of_lt ha (lt_of_lt_of_le hc hb)) (not_lt.2 (le_of_lt h))
    rw [loopBody_of_nonempty _ L hL]
    simp [mergeSorted, Slice.elems, hlen, hn1, h]
  refine ⟨h1, h2, ?_⟩
  intro hor
  have hU : (uniqFromSorted (sortInts L)).Pairwise (· < ·) := uniqFromSorted_strict _ hnews
  have hUmem : ∀ x, x ∈ uniqFromSorted (sortInts L) ↔ x ∈ L := fun x => by
    rw [mem_uniqFromSorted, mem_sortInts]
  have hunion : ∀ xs : List Int, xs.Pairwise (· < ·) →
      (∀ x, x ∈ xs ↔ x ∈ A ∨ x ∈ L) → xs.Sorted (· < ·) ∧ xs = sortedUnion [A, L] := by
    intro xs hxs hmem
    refine ⟨hxs, eq_sortedUnion xs _ hxs ?_⟩
    intro x
    rw [hmem]
    simp
  rcases hor with hc | hc
  · rw [h1 hc]
    refine hunion _ ?_ (fun x => by simp [Slice.elems, hUmem])
    rw [at_zero_uniqFromSorted] at hc
    simp only [Slice.elems]
    rw [List.pairwise_append]
    refine ⟨hAs, hU, ?_⟩
    intro a ha b hb
    have ha1 := le_at_last (· ≤ ·) (fun _ _ h => h) A hAle a ha
    have hb1 := at_zero_le (· ≤ ·) (fun _ _ h => h) (sortInts L) hnews b
      ((mem_uniqFromSorted _ b).1 hb)
    exact lt_of_le_of_lt ha1 (lt_of_lt_of_le hc hb1)
  · rw [h2 hc]
    refine hunion _ ?_ (fun x => by simp [Slice.elems, hUmem, or_comm])
    rw [at_last_uniqFromSorted] at hc
    simp only [Slice.elems]
    rw [List.pairwise_append]
    refine ⟨hU, hAs, ?_⟩
    intro a ha b hb
    have ha1 := le_at_last (· ≤ ·) (fun _ _ h => h) (sortInts L) hnews a
      ((mem_uniqFromSorted _ a).1 ha)
    have hb1 := at_zero_le (· ≤ ·) (fun _ _ h => h) A hAle b hb
    exact lt_of_le_of_lt ha1 (lt_of_lt_of_le hc hb1)

/-- Witness of C13 from main_test.go: `[10..15]` and `[20..25]` in either
arrival order give `[10,11,12,13,14,15,20,21,22,23,24,25]`. -/
theorem disjoint_fast_paths_witness :
    mergeAll [[10, 11, 12, 13, 14, 15], [20, 21, 22, 23, 24, 25]]
      = some [10, 11, 12, 13, 14, 15, 20, 21, 22, 23, 24, 25] ∧
    mergeAll [[20, 21, 22, 23, 24, 25], [10, 11, 12, 13, 14, 15]]
      = some [10, 11, 12, 13, 14, 15, 20, 21, 22, 23, 24, 25] ∧
    loopBody (some [10, 11, 12, 13, 14, 15]) [20, 21, 22, 23, 24, 25]
      = some ([10, 11, 12, 13, 14, 15] ++ uniqFromSorted (sortInts [20, 21, 22, 23, 24, 25])) ∧
    loopBody (some [20, 21, 22, 23, 24, 25]) [10, 11, 12, 13, 14, 15]
      = some (uniqFromSorted (sortInts [10, 11, 12, 13, 14, 15]) ++ [20, 21, 22, 23, 24, 25]) ∧
    ((loopBody (some [10, 11, 12, 13, 14, 15]) [20, 21, 22, 23, 24, 25]).elems.Sorted (· < ·) ∧
      (loopBody (some [10, 11, 12, 13, 14, 15]) [20, 21, 22, 23, 24, 25]).elems
        = sortedUnion [[10, 11, 12, 13, 14, 15], [20, 21, 22, 23, 24, 25]]) :=
  ⟨by decide, by decide,
    (disjoint_fast_paths [10, 11, 12, 13, 14, 15] [20, 21, 22, 23, 24, 25]
      (by decide) (by decide) (by decide)).1 (by decide),
    (disjoint_fast_paths [20, 21, 22, 23, 24, 25] [10, 11, 12, 13, 14, 15]
      (by decide) (by decide) (by decide)).2.1 (by decide),
    (disjoint_fast_paths [10, 11, 12, 13, 14, 15] [20, 21, 22, 23, 24, 25]
      (by decide) (by decide) (by decide)).2.2 (Or.inl (by decide))⟩

/-- C14. A non-empty list arriving while the accumulator is empty becomes the
accumulator sorted ascending with duplicates removed: the result is strictly
ascending and is the sorted unique union of the one list.  So a request to
`/numbers` with a single `u` whose source succeeds with a non-empty list gets
200 and that list, sorted and without duplicates, as its numbers. -/
theorem first_list_normalized (sset : Slice) (L : List Int) (hs : sset.elems = [])
    (hL : L ≠ []) :
    loopBody sset L = some (uniqFromSorted (sortInts L)) ∧
    (uniqFromSorted (sortInts L)).Sorted (· < ·) ∧
    uniqFromSorted (sortInts L) = sortedUnion [L] ∧
    (∀ (w : World) (r : Request) (url : String), r.Path = "/numbers" → r.u = [url] →
      (w.sched [(0, url)]).Perm [(0, url)] → goroutine w (0, url) = some L →
      (handler w r).Code = 200 ∧
      (handler w r).Body = Encode { Numbers := some (uniqFromSorted (sortInts L)) }) := by
  have hstrict := uniqFromSorted_strict _ (sortInts_sorted L)
  have hbody : ∀ s : Slice, s.elems = [] → loopBody s L = some (uniqFromSorted (sortInts L)) := by
    intro s h0
    rw [loopBody_of_nonempty _ L hL]
    simp [mergeSorted, h0]
  refine ⟨hbody sset hs, hstrict, ?_, ?_⟩
  · refine eq_sortedUnion _ _ hstrict ?_
    intro x
    rw [mem_uniqFromSorted, mem_sortInts]
    simp
  · intro w r url hp hu hsched hg
    have hne : r.u ≠ [] := by rw [hu]; simp
    rw [handler_of_valid w r hp hne, hu]
    have henum : [url].enum = [(0, url)] := rfl
    rw [henum, List.perm_singleton.1 hsched]
    simp only [List.filterMap_cons, hg, List.filterMap_nil]
    refine ⟨rfl, ?_⟩
    have : rangeTube none [L] = some (uniqFromSorted (sortInts L)) := hbody none rfl
    rw [this]

/-- Witness of C14 from main_test.go: the list of `/rand` alone gives
`[1,3,5,7,8,10,17,19,24,27,34,76]`. -/
theorem first_list_normalized_witness :
    Slice.elems none = [] ∧
    uniqFromSorted (sortInts [5, 17, 3, 19, 76, 24, 1, 5, 10, 34, 8, 27, 7])
      = [1, 3, 5, 7, 8, 10, 17, 19, 24, 27, 34, 76] ∧
    loopBody none [5, 17, 3, 19, 76, 24, 1, 5, 10, 34, 8, 27, 7]
      = some (uniqFromSorted (sortInts [5, 17, 3, 19, 76, 24, 1, 5, 10, 34, 8, 27, 7])) ∧
    ((handler randWorld onlyRand).Code = 200 ∧
      (handler randWorld onlyRand).Body
        = Encode
            ⟨some (uniqFromSorted (sortInts [5, 17, 3, 19, 76, 24, 1, 5, 10, 34, 8, 27, 7]))⟩) ∧
    (handler randWorld onlyRand).Body
      = "\x7b\"numbers\":[1,3,5,7,8,10,17,19,24,27,34,76]\x7d\n" :=
  ⟨rfl, by decide,
    (first_list_normalized none [5, 17, 3, 19, 76, 24, 1, 5, 10, 34, 8, 27, 7] rfl (by decide)).1,
    (first_list_normalized none [5, 17, 3, 19, 76, 24, 1, 5, 10, 34, 8, 27, 7] rfl
      (by decide)).2.2.2 randWorld onlyRand "http://localhost:8090/rand" (by decide) (by decide)
      (List.Perm.refl _) (by decide),
    by decide⟩

/-- C15. An empty incoming list leaves the accumulator as it is, so an empty
list put into or taken out of the arrival sequence at any place, and dropping
all the empty lists, do not change what the loop ends with. -/
theorem empty_list_is_noop (sset : Slice) (pre post tube : List (List Int)) :
    loopBody sset [] = sset ∧
    rangeTube sset (pre ++ [] :: post) = rangeTube sset (pre ++ post) ∧
    rangeTube sset (tube.filter (fun new => decide (new ≠ []))) = rangeTube sset tube := by
  have h1 : ∀ s : Slice, loopBody s [] = s := fun s => by simp [loopBody]
  refine ⟨h1 sset, ?_, ?_⟩
  · simp [rangeTube, List.foldl_append, h1]
  · induction tube generalizing sset with
    | nil => rfl
    | cons new tube ih =>
      by_cases hn : new = []
      · subst hn
        simp only [ne_eq, not_true_eq_false, decide_False, Bool.false_eq_true, not_false_eq_true,
          List.filter_cons_of_neg, rangeTube_cons, h1]
        exact ih sset
      · simp only [ne_eq, hn, not_false_eq_true, decide_True, List.filter_cons_of_pos,
          rangeTube_cons]
        exact ih _

/-- C12. The general merge is not the reference merge of `sset` and
`uniqFromSorted(new)`.  `[1,5]` is non-empty and strictly ascending, `[5,5]`
and `[0,3]` are non-empty and sorted, and the ranges overlap; the reference
merge gives `[1,5]` and `[0,1,3,5]`, the code `[1,5,5]` and `[1,3,5]`.  On the
two lists of the test the two agree. -/
theorem generalMerge_differs_from_reference :
    ([1, 5].Sorted (· < ·) ∧ [5, 5].Sorted (· ≤ ·) ∧
      ¬ at_ [1, 5] 1 < at_ [5, 5] 0 ∧ ¬ at_ [5, 5] 1 < at_ [1, 5] 0) ∧
    generalMerge [1, 5] [5, 5] = [1, 5, 5] ∧
    referenceMerge [1, 5] (uniqFromSorted [5, 5]) = [1, 5] ∧
    ([0, 3].Sorted (· ≤ ·) ∧ ¬ at_ [1, 5] 1 < at_ [0, 3] 0 ∧ ¬ at_ [0, 3] 1 < at_ [1, 5] 0) ∧
    generalMerge [1, 5] [0, 3] = [1, 3, 5] ∧
    referenceMerge [1, 5] (uniqFromSorted [0, 3]) = [0, 1, 3, 5] ∧
    generalMerge [2, 3, 5, 7, 11, 13] [1, 1, 2, 3, 5, 8, 13, 21]
      = referenceMerge [2, 3, 5, 7, 11, 13] (uniqFromSorted [1, 1, 2, 3, 5, 8, 13, 21]) := by
  decide

end Numbers
